import Mathlib

/- Verification of the consensus core in src/src/consensus.cpp
   (class HotStuffCore; its header is src/unnamed/part_001).

   Modelling conventions.
   256-bit digests (uint256_t) are modelled as Nat.  Block pointers are
   modelled as block hashes: the storage is content-addressed, so there is
   exactly one block object per hash and pointer equality coincides with
   hash equality.  std::unordered_map<ReplicaID, std::vector<uint256_t>>
   is modelled as an association list whose list order stands for the
   map's iteration order.  Undefined behaviour of the C++ source
   (dereferencing begin() of an empty map, std::vector operator[] out of
   range, a walk that never terminates) is modelled as failure: none, or
   an error component in the result. -/

namespace Alkane

/-- An orders map: ReplicaID paired with that replica's command sequence. -/
abbrev OrdersMap := List (Nat × List Nat)

/-- Exact rational arithmetic on unnormalised fractions (numerator and
    denominator kept separate, denominators positive by construction).
    The C++ source accumulates command weights in double precision; every
    weight appearing in the spec and the claims is a dyadic rational that
    double arithmetic represents exactly, so the computation is modelled
    with exact rational arithmetic.  All operations are structural, hence
    directly evaluable. -/
structure Frac where
  num : Int
  den : Nat
deriving DecidableEq

/-- Interpretation of a fraction as a rational number. -/
def Frac.toRat (a : Frac) : ℚ := (a.num : ℚ) / (a.den : ℚ)

def Frac.add (a b : Frac) : Frac :=
  ⟨a.num * (b.den : Int) + b.num * (a.den : Int), a.den * b.den⟩

def Frac.mul (a b : Frac) : Frac := ⟨a.num * b.num, a.den * b.den⟩

def Frac.sub (a b : Frac) : Frac :=
  ⟨a.num * (b.den : Int) - b.num * (a.den : Int), a.den * b.den⟩

def Frac.pow (a : Frac) : Nat → Frac
  | 0 => ⟨1, 1⟩
  | n + 1 => a.mul (a.pow n)

/-- The fraction 1. -/
def Frac.one : Frac := ⟨1, 1⟩

/-- Strict comparison by cross multiplication (agrees with the rational
    order whenever both denominators are positive, see Frac.lt_iff). -/
def Frac.lt (a b : Frac) : Bool := a.num * (b.den : Int) < b.num * (a.den : Int)

/-- Sum of a list of fractions. -/
def Frac.sumList (l : List Frac) : Frac := l.foldr Frac.add ⟨0, 1⟩

theorem Frac.lt_iff (a b : Frac) (ha : 0 < a.den) (hb : 0 < b.den) :
    a.lt b = true ↔ a.toRat < b.toRat := by
  have ha2 : (0 : ℚ) < (a.den : ℚ) := by exact_mod_cast ha
  have hb2 : (0 : ℚ) < (b.den : ℚ) := by exact_mod_cast hb
  rw [Frac.toRat, Frac.toRat, div_lt_div_iff₀ ha2 hb2, Frac.lt, decide_eq_true_eq]
  constructor
  · intro h
    exact_mod_cast h
  · intro h
    exact_mod_cast h

/-- Model of std::sort with a strict comparator lt.  std::sort guarantees a
    permutation of the input in which no element strictly lt-precedes an
    earlier one; a stable sort with the complement comparator realises
    exactly that postcondition, and agrees with every conforming std::sort
    whenever lt is a strict total order on the elements. -/
def stdSort (lt : α → α → Bool) (l : List α) : List α :=
  l.insertionSort (fun a b => lt b a = false)

/-- Weight contributed to command c by a single replica sequence: for every
    occurrence of c at 1-based position i, the term 1 - gamma ^ i
    (the cmd_weight accumulation of consensus.cpp lines 270-276). -/
def seqWeight (gamma : Frac) (seq : List Nat) (c : Nat) : Frac :=
  Frac.sumList
    ((seq.enum.filter (fun p => p.2 == c)).map (fun p => Frac.one.sub (gamma.pow (p.1 + 1))))

/-- cmd_weight[c] of fair_finalize: the total over all replica sequences. -/
def cmdWeight (gamma : Frac) (orders : OrdersMap) (c : Nat) : Frac :=
  Frac.sumList (orders.map (fun o => seqWeight gamma o.2 c))

/-- The distinct commands appearing in the orders map, in ascending hash
    order: the key set of the std::map cmd_weight of consensus.cpp 266-280
    (the first sequence's commands are inserted explicitly, every other
    command is default-inserted by operator[] during accumulation). -/
def cmdKeys (orders : OrdersMap) : List Nat :=
  ((orders.map Prod.snd).flatten.dedup).insertionSort (fun a b => a ≤ b)

/-- Number of index pairs i < j with seq[i] = a and seq[j] = b: the
    weight_count[a][b] increments of consensus.cpp 289-296 for one
    sequence. -/
def pairsBefore (seq : List Nat) (a b : Nat) : Nat :=
  match seq with
  | [] => 0
  | x :: xs => (if x = a then xs.count b else 0) + pairsBefore xs a b

/-- weight_count[a][b] summed over all replica sequences; only the first
    len positions of each sequence are inspected (len is the first
    sequence's length in the source, consensus.cpp line 287). -/
def pairCount (orders : OrdersMap) (len : Nat) (a b : Nat) : Nat :=
  (orders.map (fun o => pairsBefore (o.2.take len) a b)).sum

/-- Comparator of the second std::sort of fair_finalize (consensus.cpp
    298-299): a strictly precedes b iff strictly more sequences place a
    before b; on equal counts, ascending hash. -/
def pairLt (orders : OrdersMap) (len : Nat) (a b : Nat) : Bool :=
  if pairCount orders len a b = pairCount orders len b a then a < b
  else pairCount orders len a b > pairCount orders len b a

/-- HotStuffCore::fair_finalize (consensus.cpp 261-303): build cmd_weight,
    sort the key set by ascending weight, then re-sort the whole list with
    the pairwise comparator.  none models the undefined behaviour on an
    empty orders map (orders.begin() dereferenced at line 267) and on a
    sequence shorter than the first one (tmp[from], tmp[to] out of range
    at line 293). -/
def fair_finalize (gamma : Frac) (orders : OrdersMap) : Option (List Nat) :=
  match orders with
  | [] => none
  | o0 :: rest =>
    let len := o0.2.length
    if (o0 :: rest).all (fun o => len ≤ o.2.length) then
      some (stdSort (pairLt (o0 :: rest) len)
        (stdSort (fun a b => (cmdWeight gamma (o0 :: rest) a).lt (cmdWeight gamma (o0 :: rest) b))
          (cmdKeys (o0 :: rest))))
    else none

/-- Phase 1 of HotStuffCore::fair_propose (consensus.cpp 650-659): the
    first replica's sequence is extended, replica by replica, with the
    commands of each later sequence that are missing from the snapshot vc
    of the first sequence taken before that replica is processed. -/
def merge_base (v0 : List Nat) (rest : List (List Nat)) : List Nat :=
  rest.foldl (fun acc vi => acc ++ vi.filter (fun c => !(acc.contains c))) v0

/-- HotStuffCore::fair_propose (consensus.cpp 637-689), the merge that
    builds the proposal's orders map.  The replicas (distinct keys of the
    leader's local-order cache) are represented positionally: entry 0 is
    replicas[0].  Phase 2 (lines 660-668) appends to every later replica's
    sequence, in the final first-sequence order, the commands it is
    missing, each tested against the snapshot vc of that replica's
    original sequence. -/
def fair_propose (vecs : List (List Nat)) : List (List Nat) :=
  match vecs with
  | [] => []
  | v0 :: rest =>
    let base := merge_base v0 rest
    base :: rest.map (fun vj => vj ++ base.filter (fun c => !(vj.contains c)))

/-- A quorum certificate: the certified block hash (its obj_hash), the
    voter ids whose partial certificates have been added, and whether
    compute() has been run. -/
structure QC where
  obj : Nat
  parts : List Nat
  computed : Bool
deriving DecidableEq

/-- A block.  entity.h is not under src/, so the fields are the ones used
    by consensus.cpp together with the spec's data model (section 3):
    parent_hashes, resolved parents, height, carried qc and resolved
    qc_ref, self_qc under construction, voted set, the orders map, the
    delivered flag and the decision flag. -/
structure Block where
  parent_hashes : List Nat
  parents : List Nat
  height : Nat
  qc : Option QC
  qc_ref : Option Nat
  self_qc : Option QC
  voted : List Nat
  orders : OrdersMap
  delivered : Bool
  decision : Bool
deriving DecidableEq

/-- Per-replica HotStuffCore state: the block storage (content-addressed
    association list hash to block), the hqc pair, b_lock, b_exec,
    vheight, the tail set, the pending async_qc_finish waiters, the
    auxiliary command caches of EntityStorage touched by update, and the
    configuration. -/
structure St where
  blocks : List (Nat × Block)
  hqc_blk : Nat
  hqc_cert : QC
  b_lock : Nat
  b_exec : Nat
  vheight : Nat
  tails : List Nat
  qc_waiting : List Nat
  seen_propose : List Nat
  seen_execute : List Nat
  proposed_cmds : List Nat
  self_id : Nat
  nmajority : Nat
  gamma : Frac
deriving DecidableEq

/-- A Finality record (consensus.h): replica id, decision, command index,
    command height, command hash, block hash. -/
structure Finality where
  rid : Nat
  dec : Int
  cmd_idx : Nat
  cmd_height : Nat
  cmd_hash : Nat
  blk_hash : Nat
deriving DecidableEq

/-- Externally observable outputs of the state machine: the do_* callback
    invocations and the one-shot promise resolutions. -/
inductive Eff where
  | consensus (blk : Nat)
  | decideFin (fin : Finality)
  | vote (proposer : Nat) (blk : Nat)
  | broadcastProposal (blk : Nat)
  | hqcUpdate
  | qcFinish (blk : Nat)
  | recvPropResolved
  | propResolved (blk : Nat)
deriving DecidableEq

/-- Failures: thrown std::runtime_error values, plus explicit markers for
    runs whose C++ counterpart has undefined behaviour. -/
inductive Err where
  | blockNotFound
  | notDelivered
  | emptyOrders
  | emptyParents
  | missingParent
  | safetyBreached
  | heightRegression
  | walkStuck
deriving DecidableEq

/-- Result of one externally triggered operation: the post state, the
    emitted effects in order, and an error if the operation threw. -/
abbrev StepRes := St × List Eff × Option Err

def St.getBlk (st : St) (h : Nat) : Option Block := st.blocks.lookup h

/-- Replace the block stored under hash h (content addressed, so the key
    set is unchanged). -/
def St.setBlk (st : St) (h : Nat) (b : Block) : St :=
  { st with blocks := st.blocks.map (fun p => if p.1 = h then (h, b) else p) }

/-- Height of the block stored under h (0 when absent; all theorems are
    stated on states where the relevant lookups succeed). -/
def St.blkHeight (st : St) (h : Nat) : Nat := ((st.getBlk h).map Block.height).getD 0

/-- Whether the block stored under h is delivered (true when absent). -/
def St.deliveredAt (st : St) (h : Nat) : Bool :=
  ((st.getBlk h).map Block.delivered).getD true

/-- HotStuffCore::get_delivered_blk (consensus.cpp 59-64): lookup that
    fails unless the block exists and is delivered. -/
def get_delivered_blk (st : St) (h : Nat) : Option Block :=
  match st.getBlk h with
  | none => none
  | some b => if b.delivered then some b else none

/-- HotStuffCore::update_hqc (consensus.cpp 93-99): replace the hqc pair
    only when the candidate block is strictly higher; on replacement the
    hqc_update_waiting promise resolves (on_hqc_update). -/
def update_hqc (st : St) (h : Nat) (qc : QC) : St × List Eff :=
  if st.blkHeight h > st.blkHeight st.hqc_blk then
    ({ st with hqc_blk := h, hqc_cert := qc }, [Eff.hqcUpdate])
  else (st, [])

/-- HotStuffCore::on_qc_finish (consensus.cpp 947-954): resolve and drop
    the async_qc_finish waiter of blk, if one is pending. -/
def on_qc_finish (st : St) (b : Nat) : St × List Eff :=
  if b ∈ st.qc_waiting then
    ({ st with qc_waiting := st.qc_waiting.filter (fun x => x != b) }, [Eff.qcFinish b])
  else (st, [])

/-- The proposal-level seen-cache cleanup at the top of update
    (consensus.cpp 118-121): the commands of the first sequence of the new
    block's orders map leave the seen set. -/
def dropSeenPropose (st : St) (o0 : Nat × List Nat) : St :=
  { st with seen_propose := st.seen_propose.filter (fun c => !(o0.2.contains c)) }

/-- The b_lock rule of update (consensus.cpp 144): lock blk1 when it is
    strictly higher than the current b_lock. -/
def lockStep (st : St) (b1 : Nat) (blk1 : Block) : St :=
  if blk1.height > st.blkHeight st.b_lock then { st with b_lock := b1 } else st

/-- The commit walk of update (consensus.cpp 179-186): from blk, follow
    parents[0] while the height exceeds b_exec's height, collecting the
    visited blocks; returns the queue and the terminus.  The fuel bounds
    the walk: in the source the heights of delivered blocks strictly
    decrease along parents[0], so blk.height + 1 steps always suffice;
    none models a missing block, a missing parents[0], or a walk that
    would not terminate. -/
def commitWalk (st : St) (execH : Nat) : Nat → Nat → Option (List Nat × Nat)
  | 0, _ => none
  | fuel + 1, b =>
    match st.getBlk b with
    | none => none
    | some blk =>
      if blk.height > execH then
        match blk.parents.head? with
        | none => none
        | some p =>
          match commitWalk st execH fuel p with
          | none => none
          | some (q, t) => some (b :: q, t)
      else some ([], b)

/-- State change of one committed block inside the commit loop
    (consensus.cpp 206-215): set the decision flag, drop the committed
    commands from the execute-level seen cache and the proposed-command
    cache, advance b_exec. -/
def commitStep (st : St) (b : Nat) (blk : Block) (order : List Nat) : St :=
  let st1 := st.setBlk b { blk with decision := true }
  { st1 with
    seen_execute := st1.seen_execute.filter (fun c => !(order.contains c)),
    proposed_cmds := st1.proposed_cmds.filter (fun c => !(order.contains c)),
    b_exec := b }

/-- Effects of one committed block: the do_consensus hook, then one
    do_decide Finality per command of the finalized order, in order, with
    decision 1, the command index, the block height, the command hash and
    the block hash (consensus.cpp 207-211). -/
def commitEffs (st : St) (b : Nat) (blk : Block) (order : List Nat) : List Eff :=
  Eff.consensus b ::
    order.enum.map (fun p => Eff.decideFin ⟨st.self_id, 1, p.1, blk.height, p.2, b⟩)

/-- The commit loop of update (consensus.cpp 189-225), applied to the
    commit queue oldest first: run fair_finalize; an empty order from a
    non-empty orders map breaks the loop; otherwise commit the block via
    commitStep and emit commitEffs. -/
def commitLoop (st : St) : List Nat → St × List Eff × Option Err
  | [] => (st, [], none)
  | b :: rest =>
    match st.getBlk b with
    | none => (st, [], some Err.blockNotFound)
    | some blk =>
      match fair_finalize st.gamma blk.orders with
      | none => (st, [], some Err.emptyOrders)
      | some order =>
        if order = [] ∧ blk.orders ≠ [] then (st, [], none)
        else
          let r := commitLoop (commitStep st b blk order) rest
          (r.1, commitEffs st b blk order ++ r.2.1, r.2.2)

/-- HotStuffCore::update (consensus.cpp 102-228), three-step variant
    (HOTSTUFF_TWO_STEP is not defined).  First the proposal-level seen
    cache drops the commands of the first sequence of nblk's orders map
    (lines 118-121; an empty orders map dereferences begin() of an empty
    map there, modelled as Err.emptyOrders).  Then the qc chain
    blk2 = nblk.qc_ref, blk1 = blk2.qc_ref, blk = blk1.qc_ref is walked
    with null and already-decided checks, updating hqc at blk2 and b_lock
    at blk1; the commit requires blk2.parents[0] = blk1 and
    blk1.parents[0] = blk, then the commit walk must end at b_exec or the
    update throws safety breached. -/
def update (st : St) (nblkId : Nat) : StepRes :=
  match st.getBlk nblkId with
  | none => (st, [], some Err.blockNotFound)
  | some nb =>
    match nb.orders.head? with
    | none => (st, [], some Err.emptyOrders)
    | some o0 =>
      match nb.qc_ref with
      | none => (dropSeenPropose st o0, [], none)
      | some b2 =>
        match (dropSeenPropose st o0).getBlk b2 with
        | none => (dropSeenPropose st o0, [], some Err.blockNotFound)
        | some blk2 =>
          if blk2.decision then (dropSeenPropose st o0, [], none)
          else
            let uh := update_hqc (dropSeenPropose st o0) b2 (nb.qc.getD ⟨b2, [], true⟩)
            match blk2.qc_ref with
            | none => (uh.1, uh.2, none)
            | some b1 =>
              match uh.1.getBlk b1 with
              | none => (uh.1, uh.2, some Err.blockNotFound)
              | some blk1 =>
                if blk1.decision then (uh.1, uh.2, none)
                else
                  match blk1.qc_ref with
                  | none => (lockStep uh.1 b1 blk1, uh.2, none)
                  | some b =>
                    match (lockStep uh.1 b1 blk1).getBlk b with
                    | none => (lockStep uh.1 b1 blk1, uh.2, some Err.blockNotFound)
                    | some blk =>
                      if blk.decision then (lockStep uh.1 b1 blk1, uh.2, none)
                      else
                        match blk2.parents.head?, blk1.parents.head? with
                        | none, _ => (lockStep uh.1 b1 blk1, uh.2, some Err.missingParent)
                        | _, none => (lockStep uh.1 b1 blk1, uh.2, some Err.missingParent)
                        | some p2, some p1 =>
                          if p2 = b1 ∧ p1 = b then
                            match commitWalk (lockStep uh.1 b1 blk1)
                              ((lockStep uh.1 b1 blk1).blkHeight
                                (lockStep uh.1 b1 blk1).b_exec) (blk.height + 1) b with
                            | none => (lockStep uh.1 b1 blk1, uh.2, some Err.walkStuck)
                            | some qt =>
                              if qt.2 = (lockStep uh.1 b1 blk1).b_exec then
                                let r := commitLoop (lockStep uh.1 b1 blk1) qt.1.reverse
                                (r.1, uh.2 ++ r.2.1, r.2.2)
                              else (lockStep uh.1 b1 blk1, uh.2, some Err.safetyBreached)
                          else (lockStep uh.1 b1 blk1, uh.2, none)

/-- HotStuffCore::on_deliver_blk (consensus.cpp 66-91): a second delivery
    warns and returns false; otherwise resolve every parent hash (each
    must be stored and delivered), compute the height from parents[0],
    resolve qc_ref from the carried qc's certified hash, update tails and
    mark delivered. -/
def on_deliver_blk (st : St) (hb : Nat) : St × Bool × Option Err :=
  match st.getBlk hb with
  | none => (st, false, some Err.blockNotFound)
  | some b =>
    if b.delivered then (st, false, none)
    else
      if b.parent_hashes.all (fun p => (get_delivered_blk st p).isSome) then
        match b.parent_hashes.head? with
        | none => (st, false, some Err.missingParent)
        | some p0 =>
          let ht := ((get_delivered_blk st p0).map Block.height).getD 0 + 1
          let qref : Option (Option Nat) :=
            match b.qc with
            | none => some b.qc_ref
            | some q =>
              match st.getBlk q.obj with
              | none => none
              | some _ => some (some q.obj)
          match qref with
          | none => (st, false, some Err.blockNotFound)
          | some r =>
            let st1 := st.setBlk hb
              { b with parents := b.parent_hashes, height := ht, qc_ref := r, delivered := true }
            ({ st1 with
              tails := hb :: st1.tails.filter (fun t => !(b.parent_hashes.contains t)) },
              true, none)
      else (st, false, some Err.notDelivered)

/-- The voting walk of on_receive_proposal (consensus.cpp 488-491): from
    bnew, follow parents[0] down to the first block of height at most
    b_lock's height; fuelled like commitWalk. -/
def voteWalk (st : St) (lockH : Nat) : Nat → Nat → Option Nat
  | 0, _ => none
  | fuel + 1, b =>
    match st.getBlk b with
    | none => none
    | some blk =>
      if blk.height > lockH then
        match blk.parents.head? with
        | none => none
        | some p => voteWalk st lockH fuel p
      else some b

/-- HotStuffCore::on_receive_proposal (consensus.cpp 454-509) up to but
    not including the final do_vote emission.  For a proposal not from
    self, check delivery and run update.  Then decide the opinion: the
    block must be higher than vheight, and either its qc_ref is higher
    than b_lock (liveness rule) or the parents[0] walk from the block
    lands exactly on b_lock (safety rule); an affirmative opinion
    advances vheight.  Then resolve the qc waiter of bnew.qc_ref for
    non-self proposals and resolve receive_proposal_waiting.  Returns the
    result together with the opinion. -/
def on_receive_proposal_pre (st : St) (proposer : Nat) (bnewId : Nat) : StepRes × Bool :=
  let selfProp : Bool := proposer == st.self_id
  match st.getBlk bnewId with
  | none => ((st, [], some Err.blockNotFound), false)
  | some _ =>
    let step1 : StepRes :=
      if selfProp then (st, [], none)
      else
        match get_delivered_blk st bnewId with
        | none => (st, [], some Err.notDelivered)
        | some _ => update st bnewId
    let st1 := step1.1
    let effs1 := step1.2.1
    match step1.2.2 with
    | some e => ((st1, effs1, some e), false)
    | none =>
      match st1.getBlk bnewId with
      | none => ((st1, effs1, some Err.blockNotFound), false)
      | some bnew =>
        let lockH := st1.blkHeight st1.b_lock
        let opinionRes : Option Bool :=
          if bnew.height > st1.vheight then
            match bnew.qc_ref with
            | some qr =>
              if st1.blkHeight qr > lockH then some true
              else
                match voteWalk st1 lockH (bnew.height + 1) bnewId with
                | none => none
                | some t => some (t = st1.b_lock)
            | none =>
              match voteWalk st1 lockH (bnew.height + 1) bnewId with
              | none => none
              | some t => some (t = st1.b_lock)
          else some false
        match opinionRes with
        | none => ((st1, effs1, some Err.walkStuck), false)
        | some opinion =>
          let st2 := if opinion then { st1 with vheight := bnew.height } else st1
          let finishRes : St × List Eff :=
            match selfProp, bnew.qc_ref with
            | false, some qr => on_qc_finish st2 qr
            | _, _ => (st2, [])
          ((finishRes.1, effs1 ++ finishRes.2 ++ [Eff.recvPropResolved], none), opinion)

/-- HotStuffCore::on_receive_proposal (consensus.cpp 454-510): the vote is
    emitted at the end exactly when the opinion is affirmative and votes
    are not disabled (line 503). -/
def on_receive_proposal (st : St) (proposer : Nat) (bnewId : Nat)
    (vote_disabled : Bool) : StepRes :=
  let pre := on_receive_proposal_pre st proposer bnewId
  match pre.1.2.2 with
  | some e => (pre.1.1, pre.1.2.1, some e)
  | none =>
    if pre.2 ∧ vote_disabled = false then
      (pre.1.1, pre.1.2.1 ++ [Eff.vote proposer bnewId], none)
    else (pre.1.1, pre.1.2.1, none)

/-- HotStuffCore::on_receive_vote (consensus.cpp 512-537): the block must
    be delivered; a vote arriving at or past quorum is dropped, as is a
    duplicate voter; otherwise record the voter, lazily create self_qc,
    add the partial certificate, and exactly when the voter count reaches
    n_majority run compute, update_hqc with the block and its self_qc,
    and resolve the async_qc_finish waiter. -/
def on_receive_vote (st : St) (voter : Nat) (blkHash : Nat) : StepRes :=
  match get_delivered_blk st blkHash with
  | none => (st, [], some Err.notDelivered)
  | some blk =>
    let qsize := blk.voted.length
    if qsize ≥ st.nmajority then (st, [], none)
    else if voter ∈ blk.voted then (st, [], none)
    else
      let qc0 := blk.self_qc.getD ⟨blkHash, [], false⟩
      let qc1 : QC := { qc0 with parts := qc0.parts ++ [voter] }
      if qsize + 1 = st.nmajority then
        let qc2 : QC := { qc1 with computed := true }
        let st1 := st.setBlk blkHash { blk with voted := blk.voted ++ [voter], self_qc := some qc2 }
        let uh := update_hqc st1 blkHash qc2
        let fin := on_qc_finish uh.1 blkHash
        (fin.1, uh.2 ++ fin.2, none)
      else
        (st.setBlk blkHash { blk with voted := blk.voted ++ [voter], self_qc := some qc1 },
          [], none)

/-- The tail of HotStuffCore::on_propose after the new block is stored
    (consensus.cpp 407-431): deliver it, run update on it, require the
    height to exceed vheight, self-receive the proposal, then resolve
    propose_waiting and broadcast. -/
def on_propose_post (st : St) (newId ht : Nat) (vote_disabled : Bool) : StepRes :=
  let dres := on_deliver_blk st newId
  match dres.2.2 with
  | some e => (dres.1, [], some e)
  | none =>
    let ures := update dres.1 newId
    match ures.2.2 with
    | some e => (ures.1, ures.2.1, some e)
    | none =>
      if ht ≤ ures.1.vheight then (ures.1, ures.2.1, some Err.heightRegression)
      else
        let rres := on_receive_proposal ures.1 ures.1.self_id newId vote_disabled
        match rres.2.2 with
        | some e => (rres.1, ures.2.1 ++ rres.2.1, some e)
        | none =>
          (rres.1, ures.2.1 ++ rres.2.1
            ++ [Eff.propResolved newId, Eff.broadcastProposal newId], none)

/-- HotStuffCore::on_propose (consensus.cpp 374-431): parents must be
    non-empty; the parents leave tails; a new block is created carrying
    the merged orders, a clone of hqc's certificate as its qc, hqc's
    block as qc_ref and height parents[0].height + 1, with a fresh
    self_qc; then on_propose_post delivers and processes it.  newId is
    the new block's hash. -/
def on_propose (st : St) (orders : OrdersMap) (parents : List Nat) (newId : Nat)
    (vote_disabled : Bool) : StepRes :=
  if parents = [] then (st, [], some Err.emptyParents)
  else
    let st := { st with tails := st.tails.filter (fun t => !(parents.contains t)) }
    let ht := st.blkHeight (parents.headD 0) + 1
    let bnew : Block :=
      { parent_hashes := parents, parents := parents, height := ht,
        qc := some st.hqc_cert, qc_ref := some st.hqc_blk,
        self_qc := some ⟨newId, [], false⟩, voted := [],
        orders := orders, delivered := false, decision := false }
    on_propose_post { st with blocks := (newId, bnew) :: st.blocks } newId ht vote_disabled

/-- Sortedness of insertionSort from transitivity and totality restricted
    to the elements of the list (the library lemma asks for global
    typeclass instances; this version lifts the list to its subtype of
    members, where the restricted hypotheses become global). -/
theorem sorted_insertionSort_of_mem {α : Type} (r : α → α → Prop) [DecidableRel r]
    (l : List α)
    (htrans : ∀ a ∈ l, ∀ b ∈ l, ∀ c ∈ l, r a b → r b c → r a c)
    (htotal : ∀ a ∈ l, ∀ b ∈ l, r a b ∨ r b a) :
    (l.insertionSort r).Sorted r := by
  haveI : IsTrans {x // x ∈ l} (fun a b => r a.1 b.1) :=
    ⟨fun a b c => htrans a.1 a.2 b.1 b.2 c.1 c.2⟩
  haveI : IsTotal {x // x ∈ l} (fun a b => r a.1 b.1) :=
    ⟨fun a b => htotal a.1 a.2 b.1 b.2⟩
  have hmap : ((l.attach.insertionSort (fun a b => r a.1 b.1)).map Subtype.val)
      = ((l.attach.map Subtype.val).insertionSort r) :=
    List.map_insertionSort (fun a b => r a.1 b.1) r Subtype.val l.attach
      (fun a _ b _ => Iff.rfl)
  rw [List.attach_map_subtype_val] at hmap
  rw [← hmap]
  have hs : List.Sorted (fun (a b : {x // x ∈ l}) => r a.1 b.1)
      (l.attach.insertionSort (fun a b => r a.1 b.1)) :=
    List.sorted_insertionSort (fun (a b : {x // x ∈ l}) => r a.1 b.1) l.attach
  exact List.Pairwise.map Subtype.val (fun a b h => h) hs

/-- stdSort permutes its input. -/
theorem stdSort_perm {α : Type} (lt : α → α → Bool) (l : List α) : (stdSort lt l).Perm l :=
  List.perm_insertionSort (fun a b => lt b a = false) l

/-- Membership in stdSort. -/
theorem mem_stdSort {α : Type} (lt : α → α → Bool) (l : List α) (a : α) :
    a ∈ stdSort lt l ↔ a ∈ l :=
  (stdSort_perm lt l).mem_iff

/-- The std::sort postcondition: when the strict comparator is asymmetric
    and its complement is transitive on the input's elements, the output
    is ordered so that no element strictly precedes an earlier one. -/
theorem stdSort_sorted {α : Type} (lt : α → α → Bool) (l : List α)
    (htrans : ∀ a ∈ l, ∀ b ∈ l, ∀ c ∈ l,
      lt b a = false → lt c b = false → lt c a = false)
    (hasymm : ∀ a ∈ l, ∀ b ∈ l, lt a b = true → lt b a = true → False) :
    (stdSort lt l).Sorted (fun a b => lt b a = false) := by
  apply sorted_insertionSort_of_mem (fun a b => lt b a = false) l htrans
  intro a ha b hb
  by_cases h1 : lt b a = true
  · right
    by_contra h2
    simp only [Bool.not_eq_false] at h2
    exact hasymm a ha b hb h2 h1
  · left
    simpa using h1

/-- A successful fair_finalize run returns the pairwise re-sort of the
    weight-sorted key list. -/
theorem fair_finalize_some (gamma : Frac) (o0 : Nat × List Nat) (rest : OrdersMap)
    (out : List Nat) (hrun : fair_finalize gamma (o0 :: rest) = some out) :
    out = stdSort (pairLt (o0 :: rest) o0.2.length)
      (stdSort (fun a b => (cmdWeight gamma (o0 :: rest) a).lt (cmdWeight gamma (o0 :: rest) b))
        (cmdKeys (o0 :: rest))) := by
  simp only [fair_finalize] at hrun
  split at hrun
  · exact (Option.some.inj hrun).symm
  · exact absurd hrun (by simp)

/-- The pairwise comparator never relates a command to itself. -/
theorem pairLt_irrefl (orders : OrdersMap) (len : Nat) (a : Nat) :
    pairLt orders len a a = false := by
  simp [pairLt]

/-- The pairwise comparator is asymmetric. -/
theorem pairLt_asymm (orders : OrdersMap) (len : Nat) (a b : Nat)
    (h1 : pairLt orders len a b = true) (h2 : pairLt orders len b a = true) : False := by
  unfold pairLt at h1 h2
  by_cases h : pairCount orders len a b = pairCount orders len b a
  · rw [if_pos h] at h1
    rw [if_pos h.symm] at h2
    simp only [decide_eq_true_eq] at h1 h2
    omega
  · rw [if_neg h] at h1
    rw [if_neg (fun hh => h hh.symm)] at h2
    simp only [decide_eq_true_eq] at h1 h2
    omega

/-- For distinct commands, the pairwise comparator relates them one way or
    the other (equal counts fall back to the hash order). -/
theorem pairLt_connected (orders : OrdersMap) (len : Nat) (a b : Nat) (hne : a ≠ b) :
    pairLt orders len a b = true ∨ pairLt orders len b a = true := by
  unfold pairLt
  by_cases h : pairCount orders len a b = pairCount orders len b a
  · rw [if_pos h, if_pos h.symm]
    simp only [decide_eq_true_eq]
    omega
  · rw [if_neg h, if_neg (fun hh => h hh.symm)]
    simp only [decide_eq_true_eq]
    omega

/-- C9: evaluation of the source's fair_finalize at an empty orders map.
    Lines 267 and 287 of consensus.cpp dereference orders.begin() of an
    empty std::map, which is undefined behaviour (modelled as none), so
    the call does not succeed with the empty sequence. -/
theorem c9_fair_finalize_empty_orders (gamma : Frac) : fair_finalize gamma [] = none := rfl

/-- C5: the weight formula on the spec's S2 instance
    orders = (A maps to [x,y,z], B maps to [y,x,z], C maps to [x,z,y]) with
    gamma = 1/2 and x = 1, y = 2, z = 3: the computed weights are
    x = 1.75 = 7/4, y = 2.125 = 17/8, z = 2.5 = 5/2, and the finalized
    sequence is [x, y, z]. -/
theorem c5_fair_finalize_weights :
    (cmdWeight ⟨1, 2⟩ [(0, [1, 2, 3]), (1, [2, 1, 3]), (2, [1, 3, 2])] 1).toRat = 7/4 ∧
    (cmdWeight ⟨1, 2⟩ [(0, [1, 2, 3]), (1, [2, 1, 3]), (2, [1, 3, 2])] 2).toRat = 17/8 ∧
    (cmdWeight ⟨1, 2⟩ [(0, [1, 2, 3]), (1, [2, 1, 3]), (2, [1, 3, 2])] 3).toRat = 5/2 ∧
    fair_finalize ⟨1, 2⟩ [(0, [1, 2, 3]), (1, [2, 1, 3]), (2, [1, 3, 2])] = some [1, 2, 3] := by
  refine ⟨?_, ?_, ?_, by decide⟩ <;>
    norm_num [cmdWeight, seqWeight, Frac.sumList, Frac.add, Frac.one, Frac.sub, Frac.mul,
      Frac.pow, Frac.toRat, List.enum]

/-- C4, counterexample: with gamma = 1/2 and
    orders = [(0,[1,2,3]), (1,[1,2,3]), (2,[1,2,3]), (3,[3,1,2]), (4,[3,1,2])],
    command 3 has weight 29/8 and command 2 has weight 4, strictly larger,
    yet fair_finalize places 2 before 3: the relative order of two
    commands of distinct weights is not determined by their weights, so
    the pairwise comparator is not a mere tie-break among equal weights. -/
theorem c4_counterexample :
    fair_finalize ⟨1, 2⟩
      [(0, [1, 2, 3]), (1, [1, 2, 3]), (2, [1, 2, 3]), (3, [3, 1, 2]), (4, [3, 1, 2])] =
      some [1, 2, 3] ∧
    (cmdWeight ⟨1, 2⟩
      [(0, [1, 2, 3]), (1, [1, 2, 3]), (2, [1, 2, 3]), (3, [3, 1, 2]), (4, [3, 1, 2])] 3).toRat
      = 29/8 ∧
    (cmdWeight ⟨1, 2⟩
      [(0, [1, 2, 3]), (1, [1, 2, 3]), (2, [1, 2, 3]), (3, [3, 1, 2]), (4, [3, 1, 2])] 2).toRat
      = 4 ∧
    (cmdWeight ⟨1, 2⟩
      [(0, [1, 2, 3]), (1, [1, 2, 3]), (2, [1, 2, 3]), (3, [3, 1, 2]), (4, [3, 1, 2])] 3).toRat
      < (cmdWeight ⟨1, 2⟩
      [(0, [1, 2, 3]), (1, [1, 2, 3]), (2, [1, 2, 3]), (3, [3, 1, 2]), (4, [3, 1, 2])] 2).toRat
      := by
  refine ⟨by decide, ?_, ?_, ?_⟩ <;>
    norm_num [cmdWeight, seqWeight, Frac.sumList, Frac.add, Frac.one, Frac.sub, Frac.mul,
      Frac.pow, Frac.toRat, List.enum]

/-- C4, amended: the second std::sort of fair_finalize re-sorts the whole
    weight-ordered list with the pairwise-majority comparator (ascending
    hash on equal counts), applied to every pair rather than only to
    equal-weight ties.  Whenever that comparator is transitive on the
    output's commands, the output is a permutation of the distinct
    commands ordered by the pairwise comparator alone: no element is
    strictly pairLt-below an earlier one. -/
theorem c4_amended_pairwise_order (gamma : Frac) (o0 : Nat × List Nat) (rest : OrdersMap)
    (out : List Nat) (hrun : fair_finalize gamma (o0 :: rest) = some out)
    (htrans : ∀ a ∈ out, ∀ b ∈ out, ∀ c ∈ out,
      pairLt (o0 :: rest) o0.2.length a b = true →
      pairLt (o0 :: rest) o0.2.length b c = true →
      pairLt (o0 :: rest) o0.2.length a c = true) :
    out.Perm (cmdKeys (o0 :: rest)) ∧
    out.Sorted (fun a b => pairLt (o0 :: rest) o0.2.length b a = false) := by
  have hout := fair_finalize_some gamma o0 rest out hrun
  subst hout
  constructor
  · exact (stdSort_perm _ _).trans (stdSort_perm _ _)
  · apply stdSort_sorted
    · intro a ha b hb c hc hab hbc
      by_contra hca
      simp only [Bool.not_eq_false] at hca
      rcases eq_or_ne a b with rfl | hab2
      · simp [hbc] at hca
      · rcases eq_or_ne b c with rfl | hbc2
        · simp [hab] at hca
        · have h1 : pairLt (o0 :: rest) o0.2.length a b = true :=
            (pairLt_connected _ _ a b hab2).resolve_right (fun hh => by simp [hab] at hh)
          have h2 : pairLt (o0 :: rest) o0.2.length b c = true :=
            (pairLt_connected _ _ b c hbc2).resolve_right (fun hh => by simp [hbc] at hh)
          have h3 := htrans a ((mem_stdSort _ _ _).mpr ha) b ((mem_stdSort _ _ _).mpr hb)
            c ((mem_stdSort _ _ _).mpr hc) h1 h2
          exact pairLt_asymm _ _ a c h3 hca
    · intro a _ b _ h1 h2
      exact pairLt_asymm _ _ a b h1 h2

/-- C4, amended, witness at the counterexample instance. -/
theorem c4_amended_pairwise_order_witness :
    ([1, 2, 3] : List Nat).Perm (cmdKeys
      [(0, [1, 2, 3]), (1, [1, 2, 3]), (2, [1, 2, 3]), (3, [3, 1, 2]), (4, [3, 1, 2])]) ∧
    ([1, 2, 3] : List Nat).Sorted (fun a b =>
      pairLt [(0, [1, 2, 3]), (1, [1, 2, 3]), (2, [1, 2, 3]), (3, [3, 1, 2]), (4, [3, 1, 2])]
        3 b a = false) :=
  c4_amended_pairwise_order ⟨1, 2⟩ (0, [1, 2, 3])
    [(1, [1, 2, 3]), (2, [1, 2, 3]), (3, [3, 1, 2]), (4, [3, 1, 2])] [1, 2, 3]
    (by decide) (by decide)

/-- C7, counterexample: with the local-order cache holding sequences
    [0, 1] for the first replica and [0, 0] (a duplicated command) for the
    second, the merge returns [0, 1] and [0, 0, 1], which are not
    permutations of one another, so the sequences of the returned orders
    map need not be permutations of the same command multiset. -/
theorem c7_counterexample :
    fair_propose [[0, 1], [0, 0]] = [[0, 1], [0, 0, 1]] ∧
    ¬ ([0, 1] : List Nat).Perm [0, 0, 1] := by
  constructor
  · decide
  · intro h
    exact absurd h.length_eq (by decide)

/-- Membership in one phase-1 merge step of fair_propose. -/
theorem mem_merge_step (acc vi : List Nat) (x : Nat) :
    x ∈ acc ++ vi.filter (fun c => !(acc.contains c)) ↔ x ∈ acc ∨ x ∈ vi := by
  simp only [List.mem_append, List.mem_filter, List.contains, List.elem_eq_mem,
    Bool.not_eq_true', decide_eq_false_iff_not]
  tauto

/-- One phase-1 merge step keeps the sequence duplicate-free. -/
theorem nodup_merge_step (acc vi : List Nat) (h1 : acc.Nodup) (h2 : vi.Nodup) :
    (acc ++ vi.filter (fun c => !(acc.contains c))).Nodup := by
  refine List.Nodup.append h1 (h2.filter _) ?_
  intro x hx hx2
  simp only [List.mem_filter, List.contains, List.elem_eq_mem, Bool.not_eq_true',
    decide_eq_false_iff_not] at hx2
  exact hx2.2 hx

/-- The phase-1 result holds exactly the commands seen in any sequence. -/
theorem mem_merge_base (v0 : List Nat) (rest : List (List Nat)) (x : Nat) :
    x ∈ merge_base v0 rest ↔ x ∈ v0 ∨ ∃ v ∈ rest, x ∈ v := by
  induction rest generalizing v0 with
  | nil => simp [merge_base]
  | cons vi rest ih =>
    rw [show merge_base v0 (vi :: rest)
        = merge_base (v0 ++ vi.filter (fun c => !(v0.contains c))) rest from rfl]
    rw [ih, mem_merge_step]
    constructor
    · rintro ((h | h) | ⟨v, hv, hx⟩)
      · exact Or.inl h
      · exact Or.inr ⟨vi, by simp, h⟩
      · exact Or.inr ⟨v, by simp [hv], hx⟩
    · rintro (h | ⟨v, hv, hx⟩)
      · exact Or.inl (Or.inl h)
      · rcases List.mem_cons.mp hv with rfl | hv2
        · exact Or.inl (Or.inr hx)
        · exact Or.inr ⟨v, hv2, hx⟩

/-- The phase-1 result is duplicate-free when all sequences are. -/
theorem nodup_merge_base (v0 : List Nat) (rest : List (List Nat))
    (h0 : v0.Nodup) (hr : ∀ v ∈ rest, v.Nodup) : (merge_base v0 rest).Nodup := by
  induction rest generalizing v0 with
  | nil => exact h0
  | cons vi rest ih =>
    exact ih _ (nodup_merge_step v0 vi h0 (hr vi (by simp))) (fun v hv => hr v (by simp [hv]))

/-- C7, amended: when every contributed sequence is duplicate-free, the
    merged first sequence holds exactly the commands seen in any sequence,
    and every sequence of the returned orders map (the extended first
    sequence and every extended later sequence) is a permutation of it. -/
theorem c7_amended_merge_union (v0 : List Nat) (rest : List (List Nat))
    (h0 : v0.Nodup) (hr : ∀ v ∈ rest, v.Nodup) :
    (∀ x, x ∈ merge_base v0 rest ↔ x ∈ v0 ∨ ∃ v ∈ rest, x ∈ v) ∧
    ∀ w ∈ fair_propose (v0 :: rest), w.Perm (merge_base v0 rest) := by
  refine ⟨fun x => mem_merge_base v0 rest x, ?_⟩
  intro w hw
  have hbase : (merge_base v0 rest).Nodup := nodup_merge_base v0 rest h0 hr
  simp only [fair_propose] at hw
  rcases List.mem_cons.mp hw with rfl | hw2
  · exact List.Perm.refl _
  · rcases List.mem_map.mp hw2 with ⟨vj, hvj, rfl⟩
    have hnodupw : (vj ++ (merge_base v0 rest).filter (fun c => !(vj.contains c))).Nodup := by
      refine List.Nodup.append (hr vj hvj) (hbase.filter _) ?_
      intro x hx hx2
      simp only [List.mem_filter, List.contains, List.elem_eq_mem, Bool.not_eq_true',
        decide_eq_false_iff_not] at hx2
      exact hx2.2 hx
    refine (List.perm_ext_iff_of_nodup hnodupw hbase).mpr ?_
    intro x
    rw [mem_merge_step vj (merge_base v0 rest) x]
    constructor
    · rintro (h | h)
      · exact (mem_merge_base v0 rest x).mpr (Or.inr ⟨vj, hvj, h⟩)
      · exact h
    · exact fun h => Or.inr h

/-- C7, amended, witness at the cache r0 = [1, 2], r1 = [2, 3]. -/
theorem c7_amended_merge_union_witness :
    (∀ x, x ∈ merge_base [1, 2] [[2, 3]] ↔ x ∈ [1, 2] ∨ ∃ v ∈ [[2, 3]], x ∈ v) ∧
    ∀ w ∈ fair_propose ([1, 2] :: [[2, 3]]), w.Perm (merge_base [1, 2] [[2, 3]]) :=
  c7_amended_merge_union [1, 2] [[2, 3]] (by decide) (by decide)

/-- Frac.add is left-commutative: both components agree by ring. -/
instance : LeftCommutative Frac.add :=
  ⟨fun a b c => by
    cases a
    cases b
    cases c
    simp only [Frac.add, Frac.mk.injEq]
    constructor
    · push_cast
      ring
    · ring⟩

/-- Summation of fractions is invariant under permutation. -/
theorem sumList_perm (l1 l2 : List Frac) (h : l1.Perm l2) :
    Frac.sumList l1 = Frac.sumList l2 := by
  unfold Frac.sumList
  exact h.foldr_eq (⟨0, 1⟩ : Frac)

/-- cmd_weight is invariant under reordering of the orders map (the C++
    accumulation order over the unordered_map is immaterial in exact
    arithmetic). -/
theorem cmdWeight_perm (gamma : Frac) (l1 l2 : OrdersMap) (h : l1.Perm l2) (c : Nat) :
    cmdWeight gamma l1 c = cmdWeight gamma l2 c :=
  sumList_perm _ _ (h.map _)

/-- The pairwise counts are invariant under reordering of the orders map. -/
theorem pairCount_perm (l1 l2 : OrdersMap) (h : l1.Perm l2) (len a b : Nat) :
    pairCount l1 len a b = pairCount l2 len a b :=
  (h.map _).sum_eq

/-- The pairwise comparator is invariant under reordering of the orders map. -/
theorem pairLt_perm (l1 l2 : OrdersMap) (h : l1.Perm l2) (len : Nat) :
    pairLt l1 len = pairLt l2 len := by
  funext a b
  unfold pairLt
  rw [pairCount_perm l1 l2 h len a b, pairCount_perm l1 l2 h len b a]

/-- The sorted key set is invariant under reordering of the orders map
    (two sorted permutations of the same distinct keys coincide). -/
theorem cmdKeys_perm (l1 l2 : OrdersMap) (h : l1.Perm l2) : cmdKeys l1 = cmdKeys l2 := by
  have hp : ((l1.map Prod.snd).flatten.dedup).Perm ((l2.map Prod.snd).flatten.dedup) :=
    ((h.map Prod.snd).flatten).dedup
  have hs1 : (((l1.map Prod.snd).flatten.dedup).insertionSort
      (fun a b => a ≤ b)).Sorted (fun a b => a ≤ b) :=
    List.sorted_insertionSort _ _
  have hs2 : (((l2.map Prod.snd).flatten.dedup).insertionSort
      (fun a b => a ≤ b)).Sorted (fun a b => a ≤ b) :=
    List.sorted_insertionSort _ _
  exact List.eq_of_perm_of_sorted
    ((List.perm_insertionSort _ _).trans (hp.trans (List.perm_insertionSort _ _).symm))
    hs1 hs2

/-- C6: the spec's determinism requirement is not delivered by the code.
    On the orders map {0:[1,2,3], 1:[2,3,1], 2:[3,1,2]} every sequence
    has the first sequence's length, so fair_finalize's guards pass and
    the sort at consensus.cpp 298 is reached, yet the pairwise-majority
    comparator handed to that std::sort is cyclic on the commands
    (1 before 2, 2 before 3, 3 before 1) and hence not a strict weak
    ordering, so the call is undefined behaviour and byte-identical
    output across replicas is not guaranteed by the program. -/
theorem c6_sort_comparator_not_swo :
    (fair_finalize ⟨1, 2⟩ [(0, [1, 2, 3]), (1, [2, 3, 1]), (2, [3, 1, 2])]).isSome = true ∧
    1 ∈ cmdKeys [(0, [1, 2, 3]), (1, [2, 3, 1]), (2, [3, 1, 2])] ∧
    2 ∈ cmdKeys [(0, [1, 2, 3]), (1, [2, 3, 1]), (2, [3, 1, 2])] ∧
    3 ∈ cmdKeys [(0, [1, 2, 3]), (1, [2, 3, 1]), (2, [3, 1, 2])] ∧
    pairLt [(0, [1, 2, 3]), (1, [2, 3, 1]), (2, [3, 1, 2])] 3 1 2 = true ∧
    pairLt [(0, [1, 2, 3]), (1, [2, 3, 1]), (2, [3, 1, 2])] 3 2 3 = true ∧
    pairLt [(0, [1, 2, 3]), (1, [2, 3, 1]), (2, [3, 1, 2])] 3 3 1 = true ∧
    pairLt [(0, [1, 2, 3]), (1, [2, 3, 1]), (2, [3, 1, 2])] 3 1 3 = false := by
  decide

/-- C10: vote_disabled is consulted only at the final do_vote emission
    (consensus.cpp 503): the post state and the error of a vote-disabled
    run equal those of the vote-enabled run on the same proposal, so
    vheight, hqc, b_lock, b_exec and the waiter resolutions advance
    identically, and the enabled run's effect trace extends the disabled
    run's by at most the single do_vote emission. -/
theorem c10_vote_disabled_frame (st : St) (proposer bnewId : Nat) :
    (on_receive_proposal st proposer bnewId true).1
      = (on_receive_proposal st proposer bnewId false).1 ∧
    (on_receive_proposal st proposer bnewId true).2.2
      = (on_receive_proposal st proposer bnewId false).2.2 ∧
    ((on_receive_proposal st proposer bnewId false).2.1
        = (on_receive_proposal st proposer bnewId true).2.1 ∨
      (on_receive_proposal st proposer bnewId false).2.1
        = (on_receive_proposal st proposer bnewId true).2.1
          ++ [Eff.vote proposer bnewId]) := by
  rcases hp : on_receive_proposal_pre st proposer bnewId with ⟨⟨st3, effs3, err⟩, opinion⟩
  simp only [on_receive_proposal, hp]
  cases err with
  | some e => exact ⟨rfl, rfl, Or.inl rfl⟩
  | none =>
    cases opinion with
    | false => exact ⟨by simp, by simp, Or.inl (by simp)⟩
    | true => exact ⟨by simp, by simp, Or.inr (by simp)⟩

/-- Lookup after replacing the binding of one key in an association list. -/
theorem lookup_map_replace (l : List (Nat × Block)) (b : Nat) (nb : Block) (h : Nat) :
    (l.map (fun p => if p.1 = b then (b, nb) else p)).lookup h
      = (l.lookup h).map (fun v => if h = b then nb else v) := by
  induction l with
  | nil => simp
  | cons p es ih =>
    rcases p with ⟨k, v⟩
    simp only [List.map_cons]
    by_cases hkb : k = b
    · subst hkb
      rw [if_pos rfl]
      by_cases hhk : h = k
      · subst hhk
        simp [List.lookup_cons]
      · simp only [List.lookup_cons]
        rw [show (h == k) = false from by simp [hhk]]
        simpa using ih
    · rw [if_neg hkb]
      by_cases hhk : h = k
      · subst hhk
        simp only [List.lookup_cons]
        rw [show (h == h) = true from by simp]
        simp [hkb]
      · simp only [List.lookup_cons]
        rw [show (h == k) = false from by simp [hhk]]
        simpa using ih

/-- Lookup after setBlk. -/
theorem getBlk_setBlk (st : St) (b : Nat) (nb : Block) (h : Nat) :
    (st.setBlk b nb).getBlk h
      = (st.getBlk h).map (fun v => if h = b then nb else v) :=
  lookup_map_replace st.blocks b nb h

/-- Every block collected by the commit walk lies strictly above the
    b_exec height the walk was started with. -/
theorem commitWalk_mem_heights (st : St) (execH : Nat) :
    ∀ (fuel b : Nat) (q : List Nat) (t : Nat),
      commitWalk st execH fuel b = some (q, t) → ∀ x ∈ q, st.blkHeight x > execH := by
  intro fuel
  induction fuel with
  | zero => intro b q t h; exact absurd h (by simp [commitWalk])
  | succ n ih =>
    intro b q t h x hx
    unfold commitWalk at h
    split at h
    · exact absurd h (by simp)
    case _ blk hblk =>
      split at h
      case isTrue hgt =>
        split at h
        · exact absurd h (by simp)
        case _ p hp =>
          split at h
          · exact absurd h (by simp)
          case _ q2 t2 hrec =>
            rcases Option.some.inj h with h2
            rcases Prod.mk.injEq .. ▸ h2 with ⟨hq, ht⟩
            subst hq
            rcases List.mem_cons.mp hx with rfl | hx2
            · unfold St.blkHeight
              rw [hblk]
              exact hgt
            · exact ih p q2 t2 (by rw [hrec, ht]) x hx2
      case isFalse =>
        rcases Option.some.inj h with h2
        rcases Prod.mk.injEq .. ▸ h2 with ⟨hq, _⟩
        subst hq
        exact absurd hx (by simp)

/-- update_hqc leaves the storage and the other core variables alone and
    never lowers the hqc block's height. -/
theorem update_hqc_fst_spec (st : St) (h : Nat) (qc : QC) :
    (update_hqc st h qc).1.blocks = st.blocks ∧
    (update_hqc st h qc).1.vheight = st.vheight ∧
    (update_hqc st h qc).1.b_lock = st.b_lock ∧
    (update_hqc st h qc).1.b_exec = st.b_exec ∧
    (update_hqc st h qc).1.blkHeight (update_hqc st h qc).1.hqc_blk
      ≥ st.blkHeight st.hqc_blk := by
  unfold update_hqc
  split
  case isTrue hgt => exact ⟨rfl, rfl, rfl, rfl, Nat.le_of_lt hgt⟩
  case isFalse => exact ⟨rfl, rfl, rfl, rfl, Nat.le_refl _⟩

/-- update_hqc emits at most the hqc-update event. -/
theorem update_hqc_effs (st : St) (h : Nat) (qc : QC) :
    ∀ e ∈ (update_hqc st h qc).2, e = Eff.hqcUpdate := by
  unfold update_hqc
  split <;> simp

/-- The commit loop keeps vheight, b_lock and the hqc pair, changes stored
    blocks only by setting the decision flag of queue members, and moves
    b_exec only to a queue member. -/
theorem commitLoop_spec (q : List Nat) : ∀ st : St,
    (commitLoop st q).1.vheight = st.vheight ∧
    (commitLoop st q).1.b_lock = st.b_lock ∧
    (commitLoop st q).1.hqc_blk = st.hqc_blk ∧
    (commitLoop st q).1.hqc_cert = st.hqc_cert ∧
    (∀ h, (commitLoop st q).1.getBlk h = st.getBlk h
        ∨ ∃ blk, st.getBlk h = some blk ∧
            (commitLoop st q).1.getBlk h = some { blk with decision := true } ∧ h ∈ q) ∧
    ((commitLoop st q).1.b_exec = st.b_exec ∨ (commitLoop st q).1.b_exec ∈ q) := by
  induction q with
  | nil =>
    intro st
    exact ⟨rfl, rfl, rfl, rfl, fun h => Or.inl rfl, Or.inl rfl⟩
  | cons b rest ih =>
    intro st
    unfold commitLoop
    split
    · exact ⟨rfl, rfl, rfl, rfl, fun h => Or.inl rfl, Or.inl rfl⟩
    case _ blk hblk =>
      split
      · exact ⟨rfl, rfl, rfl, rfl, fun h => Or.inl rfl, Or.inl rfl⟩
      case _ order horder =>
        split
        case isTrue =>
          exact ⟨rfl, rfl, rfl, rfl, fun h => Or.inl rfl, Or.inl rfl⟩
        case isFalse hbrk =>
          have hih := ih (commitStep st b blk order)
          refine ⟨hih.1, hih.2.1, hih.2.2.1, hih.2.2.2.1, ?_, ?_⟩
          · intro h
            show (commitLoop (commitStep st b blk order) rest).1.getBlk h = st.getBlk h
              ∨ ∃ blk2, st.getBlk h = some blk2 ∧
                (commitLoop (commitStep st b blk order) rest).1.getBlk h
                  = some { blk2 with decision := true } ∧ h ∈ b :: rest
            have hstep : (commitStep st b blk order).getBlk h
                = (st.getBlk h).map
                  (fun v => if h = b then { blk with decision := true } else v) :=
              getBlk_setBlk st b { blk with decision := true } h
            rcases hih.2.2.2.2.1 h with heq | ⟨blk2, hblk2, hres, hmem⟩
            · rw [heq, hstep]
              by_cases hhb : h = b
              · subst hhb
                right
                refine ⟨blk, hblk, ?_, by simp⟩
                rw [hblk]
                simp
              · left
                simp [hhb]
            · rw [hstep] at hblk2
              by_cases hhb : h = b
              · subst hhb
                rw [hblk] at hblk2
                simp at hblk2
                subst hblk2
                right
                refine ⟨blk, hblk, ?_, by simp⟩
                rw [hres]
              · simp only [if_neg hhb] at hblk2
                rw [show (st.getBlk h).map (fun v => v) = st.getBlk h from by
                  cases st.getBlk h <;> simp] at hblk2
                right
                exact ⟨blk2, hblk2, hres, by simp [hmem]⟩
          · show (commitLoop (commitStep st b blk order) rest).1.b_exec = st.b_exec
              ∨ (commitLoop (commitStep st b blk order) rest).1.b_exec ∈ b :: rest
            rcases hih.2.2.2.2.2 with heq | hmem
            · right
              rw [heq]
              show b ∈ b :: rest
              simp
            · exact Or.inr (List.mem_cons_of_mem b hmem)

/-- The commit loop never changes a block's height. -/
theorem commitLoop_blkHeight (q : List Nat) (st : St) (h : Nat) :
    (commitLoop st q).1.blkHeight h = st.blkHeight h := by
  rcases (commitLoop_spec q st).2.2.2.2.1 h with heq | ⟨blk, hblk, hres, _⟩
  · unfold St.blkHeight
    rw [heq]
  · unfold St.blkHeight
    rw [hres, hblk]
    rfl

/-- update_hqc does not touch the block storage. -/
theorem update_hqc_getBlk (st : St) (hh : Nat) (qc : QC) (x : Nat) :
    (update_hqc st hh qc).1.getBlk x = st.getBlk x := by
  unfold update_hqc
  split <;> rfl

/-- lockStep does not touch the block storage. -/
theorem lockStep_getBlk (st : St) (b1 : Nat) (blk1 : Block) (x : Nat) :
    (lockStep st b1 blk1).getBlk x = st.getBlk x := by
  unfold lockStep
  split <;> rfl

/-- lockStep keeps vheight, b_exec and the hqc block. -/
theorem lockStep_fields (st : St) (b1 : Nat) (blk1 : Block) :
    (lockStep st b1 blk1).vheight = st.vheight ∧
    (lockStep st b1 blk1).b_exec = st.b_exec ∧
    (lockStep st b1 blk1).hqc_blk = st.hqc_blk := by
  unfold lockStep
  split <;> exact ⟨rfl, rfl, rfl⟩

/-- lockStep never lowers the locked block's height. -/
theorem lockStep_lock_height (st : St) (b1 : Nat) (blk1 : Block)
    (hb1 : st.getBlk b1 = some blk1) :
    st.blkHeight st.b_lock ≤ (lockStep st b1 blk1).blkHeight (lockStep st b1 blk1).b_lock := by
  unfold lockStep
  split
  case isTrue hgt =>
    have h1 : ({ st with b_lock := b1 } : St).blkHeight b1 = blk1.height := by
      show st.blkHeight b1 = blk1.height
      unfold St.blkHeight
      rw [hb1]
      rfl
    rw [show ({ st with b_lock := b1 } : St).b_lock = b1 from rfl, h1]
    exact Nat.le_of_lt hgt
  case isFalse => exact Nat.le_refl _

/-- update keeps vheight and every block height, and never lowers the
    heights of b_lock, hqc and b_exec. -/
theorem update_frame (st : St) (nid : Nat) :
    (update st nid).1.vheight = st.vheight ∧
    (∀ h, (update st nid).1.blkHeight h = st.blkHeight h) ∧
    st.blkHeight st.b_lock ≤ (update st nid).1.blkHeight (update st nid).1.b_lock ∧
    st.blkHeight st.hqc_blk ≤ (update st nid).1.blkHeight (update st nid).1.hqc_blk ∧
    st.blkHeight st.b_exec ≤ (update st nid).1.blkHeight (update st nid).1.b_exec := by
  unfold update
  split
  · exact ⟨rfl, fun h => rfl, Nat.le_refl _, Nat.le_refl _, Nat.le_refl _⟩
  case _ nb hnb =>
    split
    · exact ⟨rfl, fun h => rfl, Nat.le_refl _, Nat.le_refl _, Nat.le_refl _⟩
    case _ o0 ho0 =>
      split
      · exact ⟨rfl, fun h => rfl, Nat.le_refl _, Nat.le_refl _, Nat.le_refl _⟩
      case _ b2 hb2 =>
        split
        · exact ⟨rfl, fun h => rfl, Nat.le_refl _, Nat.le_refl _, Nat.le_refl _⟩
        case _ blk2 hblk2 =>
          split
          case isTrue =>
            exact ⟨rfl, fun h => rfl, Nat.le_refl _, Nat.le_refl _, Nat.le_refl _⟩
          case isFalse hdec2 =>
            dsimp only
            have hspec := update_hqc_fst_spec (dropSeenPropose st o0) b2
              (nb.qc.getD ⟨b2, [], true⟩)
            have hgetU : ∀ x,
                (update_hqc (dropSeenPropose st o0) b2 (nb.qc.getD ⟨b2, [], true⟩)).1.getBlk x
                  = st.getBlk x :=
              fun x => update_hqc_getBlk (dropSeenPropose st o0) b2 (nb.qc.getD ⟨b2, [], true⟩) x
            have hhU : ∀ x,
                (update_hqc (dropSeenPropose st o0) b2 (nb.qc.getD ⟨b2, [], true⟩)).1.blkHeight x
                  = st.blkHeight x := by
              intro x
              unfold St.blkHeight
              rw [hgetU x]
            have hU : (update_hqc (dropSeenPropose st o0) b2
                  (nb.qc.getD ⟨b2, [], true⟩)).1.vheight = st.vheight ∧
                (∀ x, (update_hqc (dropSeenPropose st o0) b2
                  (nb.qc.getD ⟨b2, [], true⟩)).1.blkHeight x = st.blkHeight x) ∧
                st.blkHeight st.b_lock
                  ≤ (update_hqc (dropSeenPropose st o0) b2 (nb.qc.getD ⟨b2, [], true⟩)).1.blkHeight
                    (update_hqc (dropSeenPropose st o0) b2 (nb.qc.getD ⟨b2, [], true⟩)).1.b_lock ∧
                st.blkHeight st.hqc_blk
                  ≤ (update_hqc (dropSeenPropose st o0) b2 (nb.qc.getD ⟨b2, [], true⟩)).1.blkHeight
                    (update_hqc (dropSeenPropose st o0) b2 (nb.qc.getD ⟨b2, [], true⟩)).1.hqc_blk ∧
                st.blkHeight st.b_exec
                  ≤ (update_hqc (dropSeenPropose st o0) b2 (nb.qc.getD ⟨b2, [], true⟩)).1.blkHeight
                    (update_hqc (dropSeenPropose st o0) b2 (nb.qc.getD ⟨b2, [], true⟩)).1.b_exec := by
              refine ⟨hspec.2.1, hhU, ?_, ?_, ?_⟩
              · rw [show (update_hqc (dropSeenPropose st o0) b2
                    (nb.qc.getD ⟨b2, [], true⟩)).1.b_lock = st.b_lock from hspec.2.2.1,
                  hhU st.b_lock]
              · exact hspec.2.2.2.2
              · rw [show (update_hqc (dropSeenPropose st o0) b2
                    (nb.qc.getD ⟨b2, [], true⟩)).1.b_exec = st.b_exec from hspec.2.2.2.1,
                  hhU st.b_exec]
            split
            · exact hU
            case _ b1 hb1 =>
              split
              · exact hU
              case _ blk1 hblk1 =>
                split
                case isTrue => exact hU
                case isFalse hdec1 =>
                  have hgetS : ∀ x, (lockStep (update_hqc (dropSeenPropose st o0) b2
                        (nb.qc.getD ⟨b2, [], true⟩)).1 b1 blk1).getBlk x = st.getBlk x :=
                    fun x => (lockStep_getBlk _ b1 blk1 x).trans (hgetU x)
                  have hhS : ∀ x, (lockStep (update_hqc (dropSeenPropose st o0) b2
                        (nb.qc.getD ⟨b2, [], true⟩)).1 b1 blk1).blkHeight x = st.blkHeight x := by
                    intro x
                    unfold St.blkHeight
                    rw [hgetS x]
                  have hLf := lockStep_fields (update_hqc (dropSeenPropose st o0) b2
                    (nb.qc.getD ⟨b2, [], true⟩)).1 b1 blk1
                  have hexecEq : (lockStep (update_hqc (dropSeenPropose st o0) b2
                        (nb.qc.getD ⟨b2, [], true⟩)).1 b1 blk1).blkHeight
                      (lockStep (update_hqc (dropSeenPropose st o0) b2
                        (nb.qc.getD ⟨b2, [], true⟩)).1 b1 blk1).b_exec
                      = st.blkHeight st.b_exec := by
                    rw [hLf.2.1, hspec.2.2.2.1, hhS]
                    rfl
                  have hLock : (lockStep (update_hqc (dropSeenPropose st o0) b2
                        (nb.qc.getD ⟨b2, [], true⟩)).1 b1 blk1).vheight = st.vheight ∧
                      (∀ x, (lockStep (update_hqc (dropSeenPropose st o0) b2
                        (nb.qc.getD ⟨b2, [], true⟩)).1 b1 blk1).blkHeight x = st.blkHeight x) ∧
                      st.blkHeight st.b_lock
                        ≤ (lockStep (update_hqc (dropSeenPropose st o0) b2
                          (nb.qc.getD ⟨b2, [], true⟩)).1 b1 blk1).blkHeight
                          (lockStep (update_hqc (dropSeenPropose st o0) b2
                          (nb.qc.getD ⟨b2, [], true⟩)).1 b1 blk1).b_lock ∧
                      st.blkHeight st.hqc_blk
                        ≤ (lockStep (update_hqc (dropSeenPropose st o0) b2
                          (nb.qc.getD ⟨b2, [], true⟩)).1 b1 blk1).blkHeight
                          (lockStep (update_hqc (dropSeenPropose st o0) b2
                          (nb.qc.getD ⟨b2, [], true⟩)).1 b1 blk1).hqc_blk ∧
                      st.blkHeight st.b_exec
                        ≤ (lockStep (update_hqc (dropSeenPropose st o0) b2
                          (nb.qc.getD ⟨b2, [], true⟩)).1 b1 blk1).blkHeight
                          (lockStep (update_hqc (dropSeenPropose st o0) b2
                          (nb.qc.getD ⟨b2, [], true⟩)).1 b1 blk1).b_exec := by
                    refine ⟨(hLf.1).trans hU.1, hhS, ?_, ?_, Nat.le_of_eq hexecEq.symm⟩
                    · calc st.blkHeight st.b_lock
                          ≤ (update_hqc (dropSeenPropose st o0) b2
                            (nb.qc.getD ⟨b2, [], true⟩)).1.blkHeight
                            (update_hqc (dropSeenPropose st o0) b2
                            (nb.qc.getD ⟨b2, [], true⟩)).1.b_lock := hU.2.2.1
                        _ ≤ _ := lockStep_lock_height (update_hqc (dropSeenPropose st o0) b2
                            (nb.qc.getD ⟨b2, [], true⟩)).1 b1 blk1 hblk1
                    · rw [hLf.2.2, hhS]
                      exact hU.2.2.2.1.trans (Nat.le_of_eq (hhU _))
                  split
                  · exact hLock
                  case _ b hb =>
                    split
                    · exact hLock
                    case _ blk hblk =>
                      split
                      case isTrue => exact hLock
                      case isFalse hdec =>
                        split
                        all_goals try exact hLock
                        case _ p2 p1 hp2 hp1 =>
                          split
                          case isFalse => exact hLock
                          case isTrue hlink =>
                            split
                            · exact hLock
                            case _ qt hwalk =>
                              split
                              case isFalse => exact hLock
                              case isTrue hterm =>
                                dsimp only
                                have hcl := commitLoop_spec qt.1.reverse
                                  (lockStep (update_hqc (dropSeenPropose st o0) b2
                                    (nb.qc.getD ⟨b2, [], true⟩)).1 b1 blk1)
                                have hhC : ∀ x, (commitLoop (lockStep (update_hqc
                                      (dropSeenPropose st o0) b2 (nb.qc.getD ⟨b2, [], true⟩)).1
                                      b1 blk1) qt.1.reverse).1.blkHeight x = st.blkHeight x :=
                                  fun x => (commitLoop_blkHeight _ _ x).trans (hLock.2.1 x)
                                refine ⟨(hcl.1).trans hLock.1, hhC, ?_, ?_, ?_⟩
                                · rw [hcl.2.1, hhC]
                                  exact hLock.2.2.1.trans (Nat.le_of_eq (hLock.2.1 _))
                                · rw [hcl.2.2.1, hhC]
                                  exact hLock.2.2.2.1.trans (Nat.le_of_eq (hLock.2.1 _))
                                · rcases hcl.2.2.2.2.2 with heq | hmem
                                  · rw [heq, hhC]
                                    exact hLock.2.2.2.2.trans (Nat.le_of_eq (hLock.2.1 _))
                                  · have hmem2 : (commitLoop (lockStep (update_hqc
                                        (dropSeenPropose st o0) b2 (nb.qc.getD ⟨b2, [], true⟩)).1
                                        b1 blk1) qt.1.reverse).1.b_exec ∈ qt.1 :=
                                      List.mem_reverse.mp hmem
                                    have hgt := commitWalk_mem_heights
                                      (lockStep (update_hqc (dropSeenPropose st o0) b2
                                        (nb.qc.getD ⟨b2, [], true⟩)).1 b1 blk1)
                                      ((lockStep (update_hqc (dropSeenPropose st o0) b2
                                        (nb.qc.getD ⟨b2, [], true⟩)).1 b1 blk1).blkHeight
                                        (lockStep (update_hqc (dropSeenPropose st o0) b2
                                        (nb.qc.getD ⟨b2, [], true⟩)).1 b1 blk1).b_exec)
                                      (blk.height + 1) b qt.1 qt.2
                                      (by rw [hwalk]) _ hmem2
                                    rw [hhC]
                                    rw [hLock.2.1] at hgt
                                    rw [hexecEq] at hgt
                                    exact Nat.le_of_lt hgt

/-- on_qc_finish emits at most the qc-finish event of its block. -/
theorem on_qc_finish_effs (st : St) (b : Nat) :
    ∀ e ∈ (on_qc_finish st b).2, e = Eff.qcFinish b := by
  unfold on_qc_finish
  split <;> simp

/-- on_qc_finish only touches the waiter list. -/
theorem on_qc_finish_fields (st : St) (b : Nat) :
    (on_qc_finish st b).1.vheight = st.vheight ∧
    (on_qc_finish st b).1.blocks = st.blocks ∧
    (on_qc_finish st b).1.b_lock = st.b_lock ∧
    (on_qc_finish st b).1.b_exec = st.b_exec ∧
    (on_qc_finish st b).1.hqc_blk = st.hqc_blk ∧
    (on_qc_finish st b).1.hqc_cert = st.hqc_cert := by
  unfold on_qc_finish
  split <;> exact ⟨rfl, rfl, rfl, rfl, rfl, rfl⟩

/-- The commit loop emits only consensus and decide events, never votes. -/
theorem commitLoop_no_vote (q : List Nat) : ∀ (st : St) (p b : Nat),
    Eff.vote p b ∉ (commitLoop st q).2.1 := by
  induction q with
  | nil =>
    intro st p b
    simp [commitLoop]
  | cons c rest ih =>
    intro st p b
    unfold commitLoop
    split
    · simp
    case _ blk hblk =>
      split
      · simp
      case _ order horder =>
        split
        · simp
        · dsimp only
          intro hmem
          rcases List.mem_append.mp hmem with h1 | h2
          · unfold commitEffs at h1
            rcases List.mem_cons.mp h1 with h | h
            · exact absurd h (by simp)
            · rcases List.mem_map.mp h with ⟨x, _, hx⟩
              exact absurd hx (by simp)
          · exact ih _ p b h2

/-- update never emits a vote event. -/
theorem update_no_vote (st : St) (nid : Nat) (p b : Nat) :
    Eff.vote p b ∉ (update st nid).2.1 := by
  unfold update
  split
  · simp
  case _ nb hnb =>
    split
    · simp
    case _ o0 ho0 =>
      split
      · simp
      case _ b2 hb2 =>
        split
        · simp
        case _ blk2 hblk2 =>
          split
          case isTrue => simp
          case isFalse hdec2 =>
            dsimp only
            have hUv : Eff.vote p b ∉ (update_hqc (dropSeenPropose st o0) b2
                (nb.qc.getD ⟨b2, [], true⟩)).2 := fun hm =>
              absurd (update_hqc_effs (dropSeenPropose st o0) b2
                (nb.qc.getD ⟨b2, [], true⟩) _ hm) (by simp)
            split
            all_goals try exact hUv
            case _ b1 hb1 =>
              split
              all_goals try exact hUv
              case _ blk1 hblk1 =>
                split
                all_goals try exact hUv
                case isFalse hdec1 =>
                  split
                  all_goals try exact hUv
                  case _ b' hb' =>
                    split
                    all_goals try exact hUv
                    case _ blk hblk =>
                      split
                      all_goals try exact hUv
                      case isFalse hdec =>
                        split
                        all_goals try exact hUv
                        case _ p2 p1 hp2 hp1 =>
                          split
                          all_goals try exact hUv
                          case isTrue hlink =>
                            split
                            all_goals try exact hUv
                            case _ qt hwalk =>
                              split
                              all_goals try exact hUv
                              case isTrue hterm =>
                                dsimp only
                                intro hmem
                                rcases List.mem_append.mp hmem with h1 | h2
                                · exact hUv h1
                                · exact commitLoop_no_vote _ _ p b h2

/-- The pre-vote part of on_receive_proposal emits no vote event. -/
theorem pre_no_vote (st : St) (proposer bnewId : Nat) (p b : Nat) :
    Eff.vote p b ∉ (on_receive_proposal_pre st proposer bnewId).1.2.1 := by
  unfold on_receive_proposal_pre
  intro hmem
  split at hmem
  · simp at hmem
  case _ blk0 hblk0 =>
    dsimp only at hmem
    have hs1 : Eff.vote p b ∉
        (if (proposer == st.self_id) = true then ((st, [], none) : StepRes)
         else
           match get_delivered_blk st bnewId with
           | none => ((st, [], some Err.notDelivered) : StepRes)
           | some _ => update st bnewId).2.1 := by
      split
      · simp
      · split
        · simp
        · exact update_no_vote st bnewId p b
    split at hmem
    · exact hs1 hmem
    · split at hmem
      · exact hs1 hmem
      case _ bnew hbnew =>
        split at hmem
        · exact hs1 hmem
        case _ opinion hop =>
          rcases List.mem_append.mp hmem with h1 | h2
          · rcases List.mem_append.mp h1 with h3 | h4
            · exact hs1 h3
            · split at h4
              all_goals first
                | exact absurd (on_qc_finish_effs _ _ _ h4) (by simp)
                | simp at h4
          · simp at h2

/-- An affirmative voting opinion of on_receive_proposal certifies the
    vote rule: the block is above vheight, and either its qc_ref is above
    b_lock or the parents walk lands on b_lock (state after update). -/
theorem pre_opinion_true (st : St) (proposer bnewId : Nat)
    (hself : (proposer == st.self_id) = false)
    (hop : (on_receive_proposal_pre st proposer bnewId).2 = true) :
    ∃ bnew, (update st bnewId).1.getBlk bnewId = some bnew ∧
      bnew.height > st.vheight ∧
      ((∃ qr, bnew.qc_ref = some qr ∧
          (update st bnewId).1.blkHeight qr
            > (update st bnewId).1.blkHeight (update st bnewId).1.b_lock) ∨
        voteWalk (update st bnewId).1
          ((update st bnewId).1.blkHeight (update st bnewId).1.b_lock)
          (bnew.height + 1) bnewId = some (update st bnewId).1.b_lock) := by
  have hvh : (update st bnewId).1.vheight = st.vheight := (update_frame st bnewId).1
  unfold on_receive_proposal_pre at hop
  simp only [hself, Bool.false_eq_true, if_false] at hop
  split at hop
  · simp at hop
  case _ blk0 hblk0 =>
    rcases hdel : get_delivered_blk st bnewId with _ | db
    · rw [hdel] at hop
      simp at hop
    · rw [hdel] at hop
      split at hop
      · simp at hop
      · split at hop
        · simp at hop
        case _ bnew hbnew =>
          split at hop
          · simp at hop
          case _ opinion heqO =>
            simp only at hop
            rw [hop] at heqO
            refine ⟨bnew, hbnew, ?_⟩
            split at heqO
            case isFalse => simp at heqO
            case isTrue hht =>
              rw [hvh] at hht
              refine ⟨hht, ?_⟩
              split at heqO
              case h_1 qr hqr =>
                split at heqO
                case isTrue hlv => exact Or.inl ⟨qr, hqr, hlv⟩
                case isFalse hnlv =>
                  split at heqO
                  · simp at heqO
                  case _ t hwk =>
                    simp only [Option.some.injEq, decide_eq_true_eq] at heqO
                    rw [heqO] at hwk
                    exact Or.inr hwk
              case h_2 hqr =>
                split at heqO
                · simp at heqO
                case _ t hwk =>
                  simp only [Option.some.injEq, decide_eq_true_eq] at heqO
                  rw [heqO] at hwk
                  exact Or.inr hwk

/-- When the liveness rule fails (qc_ref at or below b_lock) and the
    parents walk lands off b_lock, the opinion is negative and vheight is
    left unchanged. -/
theorem pre_opinion_neg (st : St) (proposer bnewId : Nat)
    (hself : (proposer == st.self_id) = false)
    (bnew : Block) (qr t : Nat)
    (hbn : (update st bnewId).1.getBlk bnewId = some bnew)
    (hqr : bnew.qc_ref = some qr)
    (hqh : (update st bnewId).1.blkHeight qr
      ≤ (update st bnewId).1.blkHeight (update st bnewId).1.b_lock)
    (hwalk : voteWalk (update st bnewId).1
      ((update st bnewId).1.blkHeight (update st bnewId).1.b_lock)
      (bnew.height + 1) bnewId = some t)
    (ht : t ≠ (update st bnewId).1.b_lock) :
    (on_receive_proposal_pre st proposer bnewId).2 = false ∧
    (on_receive_proposal_pre st proposer bnewId).1.1.vheight = st.vheight := by
  have hvh : (update st bnewId).1.vheight = st.vheight := (update_frame st bnewId).1
  unfold on_receive_proposal_pre
  simp only [hself, Bool.false_eq_true, if_false]
  split
  · exact ⟨rfl, rfl⟩
  case _ blk0 hblk0 =>
    rcases hdel : get_delivered_blk st bnewId with _ | db
    · exact ⟨rfl, rfl⟩
    · split
      · exact ⟨rfl, hvh⟩
      · split
        · exact ⟨rfl, hvh⟩
        case _ bnew' hbnew =>
          rw [hbn] at hbnew
          injection hbnew with hbnew
          subst hbnew
          split
          · exact ⟨rfl, hvh⟩
          case _ opinion heqO =>
            have hopF : opinion = false := by
              split at heqO
              case isFalse =>
                simp only [Option.some.injEq] at heqO
                exact heqO.symm
              case isTrue hht =>
                rw [hqr] at heqO
                simp only at heqO
                split at heqO
                case isTrue hlv => exact absurd hlv (Nat.not_lt.mpr hqh)
                case isFalse hnlv =>
                  rw [hwalk] at heqO
                  simp only [Option.some.injEq] at heqO
                  rw [decide_eq_false ht] at heqO
                  exact heqO.symm
            subst hopF
            simp only [Bool.false_eq_true, if_false, hqr]
            exact ⟨trivial, ((on_qc_finish_fields _ qr).1).trans hvh⟩

/-- A delivered genesis-like block used by the concrete witnesses. -/
def blkEx0 : Block :=
  { parent_hashes := [], parents := [], height := 0, qc := none, qc_ref := none,
    self_qc := none, voted := [], orders := [(0, [5])], delivered := true, decision := false }

/-- A delivered height-1 proposal on top of blkEx0, certified by a qc for
    blkEx0, used by the concrete witnesses. -/
def blkEx1 : Block :=
  { parent_hashes := [10], parents := [10], height := 1, qc := some ⟨10, [], true⟩,
    qc_ref := some 10, self_qc := some ⟨11, [], false⟩, voted := [],
    orders := [(0, [5])], delivered := true, decision := false }

/-- A small concrete replica state holding blkEx0 (hash 10, executed and
    locked) and blkEx1 (hash 11), used by the concrete witnesses. -/
def stEx : St :=
  { blocks := [(11, blkEx1), (10, blkEx0)], hqc_blk := 10, hqc_cert := ⟨10, [], true⟩,
    b_lock := 10, b_exec := 10, vheight := 0, tails := [11], qc_waiting := [11],
    seen_propose := [], seen_execute := [], proposed_cmds := [],
    self_id := 0, nmajority := 2, gamma := ⟨1, 2⟩ }

/-- C2: on_receive_proposal (consensus.cpp 454-510) emits a vote for the
    proposed block only if its height exceeds vheight and either its
    qc_ref sits strictly above b_lock or the parents[0] walk from the
    block lands exactly on b_lock (both checked on the state left by
    update); and when the qc_ref liveness check fails and the walk lands
    off b_lock, no vote is emitted and vheight is unchanged. -/
theorem c2_vote_rule (st : St) (proposer bnewId : Nat) (vd : Bool)
    (hself : (proposer == st.self_id) = false) :
    (∀ p b, Eff.vote p b ∈ (on_receive_proposal st proposer bnewId vd).2.1 →
      p = proposer ∧ b = bnewId ∧
      ∃ bnew, (update st bnewId).1.getBlk bnewId = some bnew ∧
        bnew.height > st.vheight ∧
        ((∃ qr, bnew.qc_ref = some qr ∧
            (update st bnewId).1.blkHeight qr
              > (update st bnewId).1.blkHeight (update st bnewId).1.b_lock) ∨
          voteWalk (update st bnewId).1
            ((update st bnewId).1.blkHeight (update st bnewId).1.b_lock)
            (bnew.height + 1) bnewId = some (update st bnewId).1.b_lock)) ∧
    (∀ bnew qr t,
      (update st bnewId).1.getBlk bnewId = some bnew →
      bnew.qc_ref = some qr →
      (update st bnewId).1.blkHeight qr
        ≤ (update st bnewId).1.blkHeight (update st bnewId).1.b_lock →
      voteWalk (update st bnewId).1
        ((update st bnewId).1.blkHeight (update st bnewId).1.b_lock)
        (bnew.height + 1) bnewId = some t →
      t ≠ (update st bnewId).1.b_lock →
      (∀ p b, Eff.vote p b ∉ (on_receive_proposal st proposer bnewId vd).2.1) ∧
      (on_receive_proposal st proposer bnewId vd).1.vheight = st.vheight) := by
  constructor
  · intro p b hmem
    unfold on_receive_proposal at hmem
    dsimp only at hmem
    split at hmem
    · exact absurd hmem (pre_no_vote st proposer bnewId p b)
    · split at hmem
      case isTrue hcond =>
        rcases List.mem_append.mp hmem with h1 | h2
        · exact absurd h1 (pre_no_vote st proposer bnewId p b)
        · simp only [List.mem_singleton] at h2
          injection h2 with hp hb
          exact ⟨hp, hb, pre_opinion_true st proposer bnewId hself hcond.1⟩
      case isFalse =>
        exact absurd hmem (pre_no_vote st proposer bnewId p b)
  · intro bnew qr t hbn hqr hqh hwalk ht
    have hneg := pre_opinion_neg st proposer bnewId hself bnew qr t hbn hqr hqh hwalk ht
    constructor
    · intro p b hmem
      unfold on_receive_proposal at hmem
      dsimp only at hmem
      split at hmem
      · exact absurd hmem (pre_no_vote st proposer bnewId p b)
      · split at hmem
        case isTrue hcond =>
          rw [hneg.1] at hcond
          exact absurd hcond.1 (by simp)
        case isFalse =>
          exact absurd hmem (pre_no_vote st proposer bnewId p b)
    · unfold on_receive_proposal
      dsimp only
      split
      · exact hneg.2
      · split
        case isTrue hcond =>
          rw [hneg.1] at hcond
          exact absurd hcond.1 (by simp)
        case isFalse => exact hneg.2

/-- Concrete instantiation of the C2 vote rule on stEx: replica 0
    receiving block 11 proposed by replica 1. -/
theorem c2_vote_rule_witness :
    ((1 == stEx.self_id) = false) ∧
    ((∀ p b, Eff.vote p b ∈ (on_receive_proposal stEx 1 11 false).2.1 →
      p = 1 ∧ b = 11 ∧
      ∃ bnew, (update stEx 11).1.getBlk 11 = some bnew ∧
        bnew.height > stEx.vheight ∧
        ((∃ qr, bnew.qc_ref = some qr ∧
            (update stEx 11).1.blkHeight qr
              > (update stEx 11).1.blkHeight (update stEx 11).1.b_lock) ∨
          voteWalk (update stEx 11).1
            ((update stEx 11).1.blkHeight (update stEx 11).1.b_lock)
            (bnew.height + 1) 11 = some (update stEx 11).1.b_lock)) ∧
    (∀ bnew qr t,
      (update stEx 11).1.getBlk 11 = some bnew →
      bnew.qc_ref = some qr →
      (update stEx 11).1.blkHeight qr
        ≤ (update stEx 11).1.blkHeight (update stEx 11).1.b_lock →
      voteWalk (update stEx 11).1
        ((update stEx 11).1.blkHeight (update stEx 11).1.b_lock)
        (bnew.height + 1) 11 = some t →
      t ≠ (update stEx 11).1.b_lock →
      (∀ p b, Eff.vote p b ∉ (on_receive_proposal stEx 1 11 false).2.1) ∧
      (on_receive_proposal stEx 1 11 false).1.vheight = stEx.vheight)) :=
  ⟨by decide, c2_vote_rule stEx 1 11 false (by decide)⟩

/-- update_hqc does not touch the configured majority size. -/
theorem update_hqc_nmaj (st : St) (h : Nat) (qc : QC) :
    (update_hqc st h qc).1.nmajority = st.nmajority := by
  unfold update_hqc
  split <;> rfl

/-- on_qc_finish does not touch the configured majority size. -/
theorem on_qc_finish_nmaj (st : St) (b : Nat) :
    (on_qc_finish st b).1.nmajority = st.nmajority := by
  unfold on_qc_finish
  split <;> rfl

/-- The quorum certificate assembled by the vote that completes the
    quorum (consensus.cpp 527-533): the pending self_qc with the new
    voter's part added and compute() run. -/
def quorumQC (blk : Block) (blkHash voter : Nat) : QC :=
  { blk.self_qc.getD ⟨blkHash, [], false⟩ with
    parts := (blk.self_qc.getD ⟨blkHash, [], false⟩).parts ++ [voter],
    computed := true }

/-- The stored block after the vote that completes the quorum: the voter
    recorded and the finalized self_qc attached. -/
def quorumBlock (blk : Block) (blkHash voter : Nat) : Block :=
  { blk with
    voted := blk.voted ++ [voter],
    self_qc := some (quorumQC blk blkHash voter) }

/-- C8: on_receive_vote (consensus.cpp 512-537) drops votes arriving at
    or past quorum and duplicate voters without any state change; the
    vote that brings the distinct voter count to n_majority finalizes the
    block's self_qc (compute), runs update_hqc with the block and that
    self_qc, and resolves the async_qc_finish waiter; this happens once:
    afterwards every further vote for the block is a no-op; below quorum
    only the voter and partial certificate are recorded, with no
    events. -/
theorem c8_vote_quorum (st : St) (voter blkHash : Nat) (blk : Block)
    (hdel : get_delivered_blk st blkHash = some blk) :
    (st.nmajority ≤ blk.voted.length →
       on_receive_vote st voter blkHash = (st, [], none)) ∧
    (voter ∈ blk.voted →
       on_receive_vote st voter blkHash = (st, [], none)) ∧
    (voter ∉ blk.voted → blk.voted.length + 1 = st.nmajority →
       on_receive_vote st voter blkHash =
         ((on_qc_finish (update_hqc (st.setBlk blkHash (quorumBlock blk blkHash voter))
             blkHash (quorumQC blk blkHash voter)).1 blkHash).1,
          (update_hqc (st.setBlk blkHash (quorumBlock blk blkHash voter))
             blkHash (quorumQC blk blkHash voter)).2
            ++ (on_qc_finish (update_hqc (st.setBlk blkHash (quorumBlock blk blkHash voter))
             blkHash (quorumQC blk blkHash voter)).1 blkHash).2, none) ∧
       (quorumQC blk blkHash voter).computed = true ∧
       (∀ v2, on_receive_vote (on_receive_vote st voter blkHash).1 v2 blkHash
          = ((on_receive_vote st voter blkHash).1, [], none))) ∧
    (voter ∉ blk.voted → blk.voted.length + 1 < st.nmajority →
       on_receive_vote st voter blkHash =
         (st.setBlk blkHash
           { blk with
             voted := blk.voted ++ [voter],
             self_qc := some { blk.self_qc.getD ⟨blkHash, [], false⟩ with
               parts := (blk.self_qc.getD ⟨blkHash, [], false⟩).parts ++ [voter] } },
          [], none)) := by
  have hblk : st.getBlk blkHash = some blk ∧ blk.delivered = true := by
    unfold get_delivered_blk at hdel
    split at hdel
    · exact absurd hdel (by simp)
    case _ b hb =>
      split at hdel
      case isTrue hd =>
        injection hdel with h
        subst h
        exact ⟨hb, hd⟩
      case isFalse => exact absurd hdel (by simp)
  refine ⟨?_, ?_, ?_, ?_⟩
  · intro h
    unfold on_receive_vote
    rw [hdel]
    dsimp only
    rw [if_pos h]
  · intro h
    unfold on_receive_vote
    rw [hdel]
    dsimp only
    by_cases hge : blk.voted.length ≥ st.nmajority
    · rw [if_pos hge]
    · rw [if_neg hge, if_pos h]
  · intro hnm hq
    have h1 : ¬(blk.voted.length ≥ st.nmajority) := by omega
    have hres : on_receive_vote st voter blkHash =
        ((on_qc_finish (update_hqc (st.setBlk blkHash (quorumBlock blk blkHash voter))
            blkHash (quorumQC blk blkHash voter)).1 blkHash).1,
         (update_hqc (st.setBlk blkHash (quorumBlock blk blkHash voter))
            blkHash (quorumQC blk blkHash voter)).2
           ++ (on_qc_finish (update_hqc (st.setBlk blkHash (quorumBlock blk blkHash voter))
            blkHash (quorumQC blk blkHash voter)).1 blkHash).2, none) := by
      unfold on_receive_vote
      rw [hdel]
      dsimp only
      rw [if_neg h1, if_neg hnm, if_pos hq]
      rfl
    refine ⟨hres, rfl, ?_⟩
    intro v2
    rw [hres]
    dsimp only
    have hb2 : (on_qc_finish (update_hqc (st.setBlk blkHash (quorumBlock blk blkHash voter))
        blkHash (quorumQC blk blkHash voter)).1 blkHash).1.blocks
        = (st.setBlk blkHash (quorumBlock blk blkHash voter)).blocks :=
      ((on_qc_finish_fields _ _).2.1).trans (update_hqc_fst_spec _ _ _).1
    have h2 : (st.setBlk blkHash (quorumBlock blk blkHash voter)).getBlk blkHash
        = some (quorumBlock blk blkHash voter) := by
      rw [getBlk_setBlk, hblk.1]
      simp
    have hgetB : (on_qc_finish (update_hqc (st.setBlk blkHash (quorumBlock blk blkHash voter))
        blkHash (quorumQC blk blkHash voter)).1 blkHash).1.getBlk blkHash
        = some (quorumBlock blk blkHash voter) := by
      unfold St.getBlk at h2 ⊢
      rw [hb2]
      exact h2
    have hgd : get_delivered_blk (on_qc_finish (update_hqc
        (st.setBlk blkHash (quorumBlock blk blkHash voter))
        blkHash (quorumQC blk blkHash voter)).1 blkHash).1 blkHash
        = some (quorumBlock blk blkHash voter) := by
      unfold get_delivered_blk
      rw [hgetB]
      dsimp only
      rw [if_pos (show (quorumBlock blk blkHash voter).delivered = true from hblk.2)]
    have hnm2 : (on_qc_finish (update_hqc (st.setBlk blkHash (quorumBlock blk blkHash voter))
        blkHash (quorumQC blk blkHash voter)).1 blkHash).1.nmajority = st.nmajority :=
      (on_qc_finish_nmaj _ _).trans (update_hqc_nmaj _ _ _)
    have hlen : (quorumBlock blk blkHash voter).voted.length = st.nmajority := by
      show (blk.voted ++ [voter]).length = st.nmajority
      simp only [List.length_append, List.length_singleton]
      omega
    unfold on_receive_vote
    rw [hgd]
    dsimp only
    rw [if_pos (by rw [hlen, hnm2] : (quorumBlock blk blkHash voter).voted.length
      ≥ (on_qc_finish (update_hqc (st.setBlk blkHash (quorumBlock blk blkHash voter))
        blkHash (quorumQC blk blkHash voter)).1 blkHash).1.nmajority)]
  · intro hnm hlt
    have h1 : ¬(blk.voted.length ≥ st.nmajority) := by omega
    have h2 : ¬(blk.voted.length + 1 = st.nmajority) := by omega
    unfold on_receive_vote
    rw [hdel]
    dsimp only
    rw [if_neg h1, if_neg hnm, if_neg h2]

/-- Concrete instantiation of the C8 quorum rule on stEx: replica 1's
    vote for block 11 (majority 2, no votes recorded yet). -/
theorem c8_vote_quorum_witness :
    get_delivered_blk stEx 11 = some blkEx1 ∧
    ((stEx.nmajority ≤ blkEx1.voted.length →
       on_receive_vote stEx 1 11 = (stEx, [], none)) ∧
     (1 ∈ blkEx1.voted →
       on_receive_vote stEx 1 11 = (stEx, [], none)) ∧
     (1 ∉ blkEx1.voted → blkEx1.voted.length + 1 = stEx.nmajority →
       on_receive_vote stEx 1 11 =
         ((on_qc_finish (update_hqc (stEx.setBlk 11 (quorumBlock blkEx1 11 1))
             11 (quorumQC blkEx1 11 1)).1 11).1,
          (update_hqc (stEx.setBlk 11 (quorumBlock blkEx1 11 1))
             11 (quorumQC blkEx1 11 1)).2
            ++ (on_qc_finish (update_hqc (stEx.setBlk 11 (quorumBlock blkEx1 11 1))
             11 (quorumQC blkEx1 11 1)).1 11).2, none) ∧
       (quorumQC blkEx1 11 1).computed = true ∧
       (∀ v2, on_receive_vote (on_receive_vote stEx 1 11).1 v2 11
          = ((on_receive_vote stEx 1 11).1, [], none))) ∧
     (1 ∉ blkEx1.voted → blkEx1.voted.length + 1 < stEx.nmajority →
       on_receive_vote stEx 1 11 =
         (stEx.setBlk 11
           { blkEx1 with
             voted := blkEx1.voted ++ [1],
             self_qc := some { blkEx1.self_qc.getD ⟨11, [], false⟩ with
               parts := (blkEx1.self_qc.getD ⟨11, [], false⟩).parts ++ [1] } },
          [], none))) :=
  ⟨by decide, c8_vote_quorum stEx 1 11 blkEx1 (by decide)⟩

/-- The commit walk only reads the block storage, so it is invariant
    under state changes that keep every lookup. -/
theorem commitWalk_congr (st st' : St) (hg : ∀ x, st'.getBlk x = st.getBlk x) (execH : Nat) :
    ∀ (fuel b : Nat), commitWalk st' execH fuel b = commitWalk st execH fuel b := by
  intro fuel
  induction fuel with
  | zero => intro b; rfl
  | succ n ih =>
    intro b
    unfold commitWalk
    rw [hg b]
    cases hb : st.getBlk b with
    | none => rfl
    | some blk =>
      dsimp only
      by_cases hgt : blk.height > execH
      · simp only [if_pos hgt]
        cases hp : blk.parents.head? with
        | none => rfl
        | some p =>
          dsimp only
          rw [ih p]
      · simp only [if_neg hgt]

/-- C1: in update (consensus.cpp 146-215), when the three-chain blocks
    blk2, blk1, blk resolve but blk2.parents[0] and blk1.parents[0] do
    not link them directly, update returns without error and without
    committing anything (no decision flag set, b_exec unmoved, no
    consensus or decide events); and when they do link but the parents[0]
    walk from blk down to b_exec's height ends at a terminus other than
    b_exec, update fails with the fatal safety-breached error, again
    without committing any block. -/
theorem c1_commit_guard (st : St) (nid : Nat) (nb : Block) (o0 : Nat × List Nat)
    (b2 b1 b : Nat) (blk2 blk1 blk : Block) (p2 p1 : Nat)
    (hnb : st.getBlk nid = some nb)
    (ho0 : nb.orders.head? = some o0)
    (hq2 : nb.qc_ref = some b2)
    (hblk2 : st.getBlk b2 = some blk2)
    (hd2 : blk2.decision = false)
    (hq1 : blk2.qc_ref = some b1)
    (hblk1 : st.getBlk b1 = some blk1)
    (hd1 : blk1.decision = false)
    (hq0 : blk1.qc_ref = some b)
    (hblk : st.getBlk b = some blk)
    (hd0 : blk.decision = false)
    (hp2 : blk2.parents.head? = some p2)
    (hp1 : blk1.parents.head? = some p1) :
    (¬(p2 = b1 ∧ p1 = b) →
       (update st nid).2.2 = none ∧
       (∀ x, (update st nid).1.getBlk x = st.getBlk x) ∧
       (update st nid).1.b_exec = st.b_exec ∧
       (∀ e ∈ (update st nid).2.1, e = Eff.hqcUpdate)) ∧
    (∀ q t, p2 = b1 → p1 = b →
       commitWalk st (st.blkHeight st.b_exec) (blk.height + 1) b = some (q, t) →
       t ≠ st.b_exec →
       (update st nid).2.2 = some Err.safetyBreached ∧
       (∀ x, (update st nid).1.getBlk x = st.getBlk x) ∧
       (update st nid).1.b_exec = st.b_exec ∧
       (∀ e ∈ (update st nid).2.1, e = Eff.hqcUpdate)) := by
  have hgU : ∀ x, (update_hqc (dropSeenPropose st o0) b2
      (nb.qc.getD ⟨b2, [], true⟩)).1.getBlk x = st.getBlk x :=
    fun x => update_hqc_getBlk (dropSeenPropose st o0) b2 (nb.qc.getD ⟨b2, [], true⟩) x
  have hgL : ∀ x, (lockStep (update_hqc (dropSeenPropose st o0) b2
      (nb.qc.getD ⟨b2, [], true⟩)).1 b1 blk1).getBlk x = st.getBlk x :=
    fun x => (lockStep_getBlk _ b1 blk1 x).trans (hgU x)
  have hbL : (lockStep (update_hqc (dropSeenPropose st o0) b2
      (nb.qc.getD ⟨b2, [], true⟩)).1 b1 blk1).b_exec = st.b_exec :=
    ((lockStep_fields _ b1 blk1).2.1).trans (update_hqc_fst_spec _ _ _).2.2.2.1
  have hhL : ∀ x, (lockStep (update_hqc (dropSeenPropose st o0) b2
      (nb.qc.getD ⟨b2, [], true⟩)).1 b1 blk1).blkHeight x = st.blkHeight x := by
    intro x
    unfold St.blkHeight
    rw [hgL x]
  constructor
  · intro hlinks
    unfold update
    rw [hnb]
    dsimp only
    rw [ho0]
    dsimp only
    rw [hq2]
    dsimp only
    rw [show (dropSeenPropose st o0).getBlk b2 = some blk2 from hblk2]
    dsimp only
    simp only [hd2, Bool.false_eq_true, if_false]
    rw [hq1]
    dsimp only
    rw [show (update_hqc (dropSeenPropose st o0) b2
      (nb.qc.getD ⟨b2, [], true⟩)).1.getBlk b1 = some blk1 from (hgU b1).trans hblk1]
    dsimp only
    simp only [hd1, Bool.false_eq_true, if_false]
    rw [hq0]
    dsimp only
    rw [show (lockStep (update_hqc (dropSeenPropose st o0) b2
      (nb.qc.getD ⟨b2, [], true⟩)).1 b1 blk1).getBlk b = some blk from (hgL b).trans hblk]
    dsimp only
    simp only [hd0, Bool.false_eq_true, if_false]
    rw [hp2, hp1]
    dsimp only
    rw [if_neg hlinks]
    exact ⟨rfl, hgL, hbL, update_hqc_effs _ _ _⟩
  · intro q t hl2 hl1 hwalk ht
    rw [hl2] at hp2
    rw [hl1] at hp1
    have hw : commitWalk (lockStep (update_hqc (dropSeenPropose st o0) b2
        (nb.qc.getD ⟨b2, [], true⟩)).1 b1 blk1)
        ((lockStep (update_hqc (dropSeenPropose st o0) b2
          (nb.qc.getD ⟨b2, [], true⟩)).1 b1 blk1).blkHeight
         (lockStep (update_hqc (dropSeenPropose st o0) b2
          (nb.qc.getD ⟨b2, [], true⟩)).1 b1 blk1).b_exec)
        (blk.height + 1) b = some (q, t) := by
      rw [hbL, hhL st.b_exec, commitWalk_congr st _ hgL (st.blkHeight st.b_exec)]
      exact hwalk
    unfold update
    rw [hnb]
    dsimp only
    rw [ho0]
    dsimp only
    rw [hq2]
    dsimp only
    rw [show (dropSeenPropose st o0).getBlk b2 = some blk2 from hblk2]
    dsimp only
    simp only [hd2, Bool.false_eq_true, if_false]
    rw [hq1]
    dsimp only
    rw [show (update_hqc (dropSeenPropose st o0) b2
      (nb.qc.getD ⟨b2, [], true⟩)).1.getBlk b1 = some blk1 from (hgU b1).trans hblk1]
    dsimp only
    simp only [hd1, Bool.false_eq_true, if_false]
    rw [hq0]
    dsimp only
    rw [show (lockStep (update_hqc (dropSeenPropose st o0) b2
      (nb.qc.getD ⟨b2, [], true⟩)).1 b1 blk1).getBlk b = some blk from (hgL b).trans hblk]
    dsimp only
    simp only [hd0, Bool.false_eq_true, if_false]
    rw [hp2, hp1]
    dsimp only
    rw [if_pos ⟨rfl, rfl⟩]
    rw [hw]
    dsimp only
    rw [if_neg (show ¬(t = (lockStep (update_hqc (dropSeenPropose st o0) b2
      (nb.qc.getD ⟨b2, [], true⟩)).1 b1 blk1).b_exec) from by rw [hbL]; exact ht)]
    exact ⟨rfl, hgL, hbL, update_hqc_effs _ _ _⟩

/-- Genesis block of the concrete three-chain witness state. -/
def blkC1g : Block :=
  { parent_hashes := [], parents := [], height := 0, qc := none, qc_ref := none,
    self_qc := none, voted := [], orders := [(0, [1])], delivered := true, decision := false }

/-- Height-1 block of the concrete three-chain witness state. -/
def blkC1a : Block :=
  { parent_hashes := [20], parents := [20], height := 1, qc := some ⟨20, [], true⟩,
    qc_ref := some 20, self_qc := none, voted := [], orders := [(0, [1])],
    delivered := true, decision := false }

/-- Height-2 block of the concrete three-chain witness state. -/
def blkC1b : Block :=
  { parent_hashes := [21], parents := [21], height := 2, qc := some ⟨21, [], true⟩,
    qc_ref := some 21, self_qc := none, voted := [], orders := [(0, [1])],
    delivered := true, decision := false }

/-- Height-3 tip of the concrete three-chain witness state. -/
def blkC1n : Block :=
  { parent_hashes := [22], parents := [22], height := 3, qc := some ⟨22, [], true⟩,
    qc_ref := some 22, self_qc := none, voted := [], orders := [(0, [1])],
    delivered := true, decision := false }

/-- A replica state holding the directly linked chain 20 ← 21 ← 22 ← 23
    with b_exec, b_lock and hqc at genesis. -/
def stC1 : St :=
  { blocks := [(23, blkC1n), (22, blkC1b), (21, blkC1a), (20, blkC1g)],
    hqc_blk := 20, hqc_cert := ⟨20, [], true⟩, b_lock := 20, b_exec := 20,
    vheight := 0, tails := [23], qc_waiting := [], seen_propose := [],
    seen_execute := [], proposed_cmds := [], self_id := 0, nmajority := 2,
    gamma := ⟨1, 2⟩ }

/-- Concrete instantiation of the C1 commit guard on the three-chain
    state stC1 at the tip block 23. -/
theorem c1_commit_guard_witness :
    stC1.getBlk 23 = some blkC1n ∧
    blkC1n.orders.head? = some (0, [1]) ∧
    blkC1n.qc_ref = some 22 ∧
    stC1.getBlk 22 = some blkC1b ∧
    blkC1b.decision = false ∧
    blkC1b.qc_ref = some 21 ∧
    stC1.getBlk 21 = some blkC1a ∧
    blkC1a.decision = false ∧
    blkC1a.qc_ref = some 20 ∧
    stC1.getBlk 20 = some blkC1g ∧
    blkC1g.decision = false ∧
    blkC1b.parents.head? = some 21 ∧
    blkC1a.parents.head? = some 20 ∧
    ((¬(21 = 21 ∧ 20 = 20) →
       (update stC1 23).2.2 = none ∧
       (∀ x, (update stC1 23).1.getBlk x = stC1.getBlk x) ∧
       (update stC1 23).1.b_exec = stC1.b_exec ∧
       (∀ e ∈ (update stC1 23).2.1, e = Eff.hqcUpdate)) ∧
     (∀ q t, 21 = 21 → 20 = 20 →
       commitWalk stC1 (stC1.blkHeight stC1.b_exec) (blkC1g.height + 1) 20 = some (q, t) →
       t ≠ stC1.b_exec →
       (update stC1 23).2.2 = some Err.safetyBreached ∧
       (∀ x, (update stC1 23).1.getBlk x = stC1.getBlk x) ∧
       (update stC1 23).1.b_exec = stC1.b_exec ∧
       (∀ e ∈ (update stC1 23).2.1, e = Eff.hqcUpdate))) :=
  ⟨by decide, by decide, by decide, by decide, by decide, by decide, by decide,
   by decide, by decide, by decide, by decide, by decide, by decide,
   c1_commit_guard stC1 23 blkC1n (0, [1]) 22 21 20 blkC1b blkC1a blkC1g 21 20
     (by decide) (by decide) (by decide) (by decide) (by decide) (by decide)
     (by decide) (by decide) (by decide) (by decide) (by decide) (by decide)
     (by decide)⟩

/-- A successful delivered-block lookup names a stored, delivered block. -/
theorem get_delivered_blk_spec (st : St) (h : Nat) (blk : Block)
    (hdel : get_delivered_blk st h = some blk) :
    st.getBlk h = some blk ∧ blk.delivered = true := by
  unfold get_delivered_blk at hdel
  split at hdel
  · exact absurd hdel (by simp)
  case _ b hb =>
    split at hdel
    case isTrue hd =>
      injection hdel with h2
      subst h2
      exact ⟨hb, hd⟩
    case isFalse => exact absurd hdel (by simp)

/-- Equal block storages give equal heights. -/
theorem blkHeight_of_blocks_eq (st st' : St) (hb : st'.blocks = st.blocks) (x : Nat) :
    st'.blkHeight x = st.blkHeight x := by
  unfold St.blkHeight St.getBlk
  rw [hb]

/-- Replacing a stored block by one of the same height keeps every
    height. -/
theorem blkHeight_setBlk_same (st : St) (h : Nat) (blk nb : Block)
    (hgb : st.getBlk h = some blk) (heq : nb.height = blk.height) (x : Nat) :
    (st.setBlk h nb).blkHeight x = st.blkHeight x := by
  unfold St.blkHeight
  rw [getBlk_setBlk]
  by_cases hx : x = h
  · subst hx
    rw [hgb]
    simp [heq]
  · cases hgv : st.getBlk x with
    | none => rfl
    | some v => simp [hx]

/-- on_receive_vote keeps vheight, b_lock, b_exec and every block height,
    and never lowers the hqc block's height. -/
theorem vote_mono (st : St) (voter blkHash : Nat) :
    (on_receive_vote st voter blkHash).1.vheight = st.vheight ∧
    (on_receive_vote st voter blkHash).1.b_lock = st.b_lock ∧
    (on_receive_vote st voter blkHash).1.b_exec = st.b_exec ∧
    (∀ x, (on_receive_vote st voter blkHash).1.blkHeight x = st.blkHeight x) ∧
    st.blkHeight st.hqc_blk ≤
      (on_receive_vote st voter blkHash).1.blkHeight
        (on_receive_vote st voter blkHash).1.hqc_blk := by
  unfold on_receive_vote
  split
  · exact ⟨rfl, rfl, rfl, fun x => rfl, Nat.le_refl _⟩
  case _ blk hdel =>
    have hgb := get_delivered_blk_spec st blkHash blk hdel
    dsimp only
    split
    · exact ⟨rfl, rfl, rfl, fun x => rfl, Nat.le_refl _⟩
    · split
      · exact ⟨rfl, rfl, rfl, fun x => rfl, Nat.le_refl _⟩
      · split
        case isTrue hq =>
          refine ⟨?_, ?_, ?_, ?_, ?_⟩
          · exact ((on_qc_finish_fields _ _).1).trans ((update_hqc_fst_spec _ _ _).2.1)
          · exact ((on_qc_finish_fields _ _).2.2.1).trans ((update_hqc_fst_spec _ _ _).2.2.1)
          · exact ((on_qc_finish_fields _ _).2.2.2.1).trans
              ((update_hqc_fst_spec _ _ _).2.2.2.1)
          · intro x
            exact ((blkHeight_of_blocks_eq _ _ ((on_qc_finish_fields _ _).2.1) x).trans
              ((blkHeight_of_blocks_eq _ _ ((update_hqc_fst_spec _ _ _).1) x).trans
                (blkHeight_setBlk_same st blkHash blk _ hgb.1 (by rfl) x)))
          · rw [(on_qc_finish_fields _ _).2.2.2.2.1,
              blkHeight_of_blocks_eq _ _ ((on_qc_finish_fields _ _).2.1)]
            refine le_trans ?_ ((update_hqc_fst_spec _ _ _).2.2.2.2)
            exact Nat.le_of_eq (blkHeight_setBlk_same st blkHash blk _ hgb.1 (by rfl) _).symm
        case isFalse hq =>
          refine ⟨rfl, rfl, rfl,
            fun x => blkHeight_setBlk_same st blkHash blk _ hgb.1 (by rfl) x, ?_⟩
          exact Nat.le_of_eq (blkHeight_setBlk_same st blkHash blk _ hgb.1 (by rfl) _).symm

/-- on_deliver_blk keeps vheight and the three chain pointers, and only
    ever rewrites the delivered block's own storage entry. -/
theorem deliver_frame (st : St) (hb : Nat) :
    (on_deliver_blk st hb).1.vheight = st.vheight ∧
    (on_deliver_blk st hb).1.b_lock = st.b_lock ∧
    (on_deliver_blk st hb).1.b_exec = st.b_exec ∧
    (on_deliver_blk st hb).1.hqc_blk = st.hqc_blk ∧
    (∀ x, x ≠ hb → (on_deliver_blk st hb).1.getBlk x = st.getBlk x) := by
  unfold on_deliver_blk
  split
  · exact ⟨rfl, rfl, rfl, rfl, fun x _ => rfl⟩
  case _ b hbm =>
    split
    · exact ⟨rfl, rfl, rfl, rfl, fun x _ => rfl⟩
    · split
      case isTrue =>
        split
        · exact ⟨rfl, rfl, rfl, rfl, fun x _ => rfl⟩
        case _ p0 hp0 =>
          dsimp only
          split
          · exact ⟨rfl, rfl, rfl, rfl, fun x _ => rfl⟩
          case _ r hr =>
            refine ⟨rfl, rfl, rfl, rfl, ?_⟩
            intro x hx
            show (St.setBlk st hb _).getBlk x = st.getBlk x
            rw [getBlk_setBlk]
            cases hgv : st.getBlk x with
            | none => rfl
            | some v => simp [hx]
      case isFalse => exact ⟨rfl, rfl, rfl, rfl, fun x _ => rfl⟩

/-- When the three chain pointers denote delivered blocks, on_deliver_blk
    leaves their heights (and vheight) unchanged. -/
theorem deliver_mono (st : St) (hb : Nat)
    (hl : st.deliveredAt st.b_lock = true)
    (he : st.deliveredAt st.b_exec = true)
    (hq : st.deliveredAt st.hqc_blk = true) :
    (on_deliver_blk st hb).1.vheight = st.vheight ∧
    st.blkHeight st.b_lock
      ≤ (on_deliver_blk st hb).1.blkHeight (on_deliver_blk st hb).1.b_lock ∧
    st.blkHeight st.hqc_blk
      ≤ (on_deliver_blk st hb).1.blkHeight (on_deliver_blk st hb).1.hqc_blk ∧
    st.blkHeight st.b_exec
      ≤ (on_deliver_blk st hb).1.blkHeight (on_deliver_blk st hb).1.b_exec := by
  have hfr := deliver_frame st hb
  rcases hgb : st.getBlk hb with _ | b
  · have hnop : on_deliver_blk st hb = (st, false, some Err.blockNotFound) := by
      unfold on_deliver_blk
      rw [hgb]
    rw [hnop]
    exact ⟨rfl, Nat.le_refl _, Nat.le_refl _, Nat.le_refl _⟩
  · by_cases hd : b.delivered = true
    · have hnop : on_deliver_blk st hb = (st, false, none) := by
        unfold on_deliver_blk
        rw [hgb]
        dsimp only
        rw [if_pos hd]
      rw [hnop]
      exact ⟨rfl, Nat.le_refl _, Nat.le_refl _, Nat.le_refl _⟩
    · have hne : ∀ p, st.deliveredAt p = true → p ≠ hb := by
        intro p hp hcontra
        rw [hcontra] at hp
        unfold St.deliveredAt at hp
        rw [hgb] at hp
        exact hd hp
      have hh : ∀ p, p ≠ hb →
          (on_deliver_blk st hb).1.blkHeight p = st.blkHeight p := by
        intro p hp
        unfold St.blkHeight
        rw [hfr.2.2.2.2 p hp]
      refine ⟨hfr.1, ?_, ?_, ?_⟩
      · rw [hfr.2.1, hh st.b_lock (hne _ hl)]
      · rw [hfr.2.2.2.1, hh st.hqc_blk (hne _ hq)]
      · rw [hfr.2.2.1, hh st.b_exec (hne _ he)]

/-- The monotonicity relation of the spec's P1 invariant between a state
    before and after an operation: no block height drops, and vheight and
    the heights of b_lock, hqc and b_exec do not decrease. -/
def monoSt (st S : St) : Prop :=
  (∀ x, st.blkHeight x ≤ S.blkHeight x) ∧
  st.vheight ≤ S.vheight ∧
  st.blkHeight st.b_lock ≤ S.blkHeight S.b_lock ∧
  st.blkHeight st.hqc_blk ≤ S.blkHeight S.hqc_blk ∧
  st.blkHeight st.b_exec ≤ S.blkHeight S.b_exec

theorem monoSt_refl (st : St) : monoSt st st :=
  ⟨fun _ => Nat.le_refl _, Nat.le_refl _, Nat.le_refl _, Nat.le_refl _, Nat.le_refl _⟩

theorem monoSt_trans {st A B : St} (h1 : monoSt st A) (h2 : monoSt A B) : monoSt st B :=
  ⟨fun x => (h1.1 x).trans (h2.1 x), h1.2.1.trans h2.2.1, h1.2.2.1.trans h2.2.2.1,
   h1.2.2.2.1.trans h2.2.2.2.1, h1.2.2.2.2.trans h2.2.2.2.2⟩

/-- update satisfies the monotonicity invariant. -/
theorem update_monoSt (st : St) (nid : Nat) : monoSt st (update st nid).1 := by
  have h := update_frame st nid
  exact ⟨fun x => Nat.le_of_eq (h.2.1 x).symm, Nat.le_of_eq h.1.symm,
    h.2.2.1, h.2.2.2.1, h.2.2.2.2⟩

/-- on_qc_finish preserves the monotonicity invariant. -/
theorem finish_monoSt (st S : St) (b : Nat) (h : monoSt st S) :
    monoSt st (on_qc_finish S b).1 := by
  have hf := on_qc_finish_fields S b
  refine ⟨?_, ?_, ?_, ?_, ?_⟩
  · intro x
    rw [blkHeight_of_blocks_eq S _ hf.2.1 x]
    exact h.1 x
  · rw [hf.1]
    exact h.2.1
  · rw [hf.2.2.1, blkHeight_of_blocks_eq S _ hf.2.1]
    exact h.2.2.1
  · rw [hf.2.2.2.2.1, blkHeight_of_blocks_eq S _ hf.2.1]
    exact h.2.2.2.1
  · rw [hf.2.2.2.1, blkHeight_of_blocks_eq S _ hf.2.1]
    exact h.2.2.2.2

/-- Advancing vheight on an affirmative opinion preserves the
    monotonicity invariant. -/
theorem st2_monoSt (st st1 : St) (bnew : Block) (opinion : Bool)
    (h1 : monoSt st st1)
    (hht : opinion = true → st1.vheight < bnew.height) :
    monoSt st (if opinion = true then { st1 with vheight := bnew.height } else st1) := by
  cases opinion
  · simp only [Bool.false_eq_true, if_false]
    exact h1
  · rw [if_pos rfl]
    exact ⟨h1.1, Nat.le_of_lt (Nat.lt_of_le_of_lt h1.2.1 (hht rfl)), h1.2.2.1,
      h1.2.2.2.1, h1.2.2.2.2⟩

/-- vote satisfies the monotonicity invariant. -/
theorem vote_monoSt (st : St) (voter blkHash : Nat) :
    monoSt st (on_receive_vote st voter blkHash).1 := by
  have h := vote_mono st voter blkHash
  refine ⟨fun x => Nat.le_of_eq (h.2.2.2.1 x).symm, Nat.le_of_eq h.1.symm, ?_, h.2.2.2.2, ?_⟩
  · rw [h.2.1, h.2.2.2.1]
  · rw [h.2.2.1, h.2.2.2.1]

/-- The pre-vote part of on_receive_proposal satisfies the monotonicity
    invariant. -/
theorem receive_pre_monoSt (st : St) (proposer bnewId : Nat) :
    monoSt st (on_receive_proposal_pre st proposer bnewId).1.1 := by
  unfold on_receive_proposal_pre
  split
  · exact monoSt_refl st
  case _ blk0 hblk0 =>
    dsimp only
    cases hsp : proposer == st.self_id with
    | true =>
      simp only [hsp, eq_self_iff_true, if_true]
      split
      · exact monoSt_refl st
      case _ bnew hbnew =>
        split
        · exact monoSt_refl st
        case _ opinion heqO =>
          dsimp only
          refine st2_monoSt st st bnew opinion (monoSt_refl st) ?_
          intro hop
          rw [hop] at heqO
          by_cases hht : bnew.height > st.vheight
          · exact hht
          · rw [if_neg hht] at heqO
            simp at heqO
    | false =>
      simp only [hsp, Bool.false_eq_true, if_false]
      rcases hdel : get_delivered_blk st bnewId with _ | db
      · exact monoSt_refl st
      · dsimp only
        split
        · exact update_monoSt st bnewId
        · split
          · exact update_monoSt st bnewId
          case _ bnew hbnew =>
            split
            · exact update_monoSt st bnewId
            case _ opinion heqO =>
              have hst2 : monoSt st (if opinion = true
                  then { (update st bnewId).1 with vheight := bnew.height }
                  else (update st bnewId).1) := by
                refine st2_monoSt st (update st bnewId).1 bnew opinion
                  (update_monoSt st bnewId) ?_
                intro hop
                rw [hop] at heqO
                by_cases hht : bnew.height > (update st bnewId).1.vheight
                · exact hht
                · rw [if_neg hht] at heqO
                  simp at heqO
              cases hqr : bnew.qc_ref with
              | none => exact hst2
              | some qr => exact finish_monoSt st _ qr hst2

/-- on_receive_proposal satisfies the monotonicity invariant. -/
theorem receive_monoSt (st : St) (proposer bnewId : Nat) (vd : Bool) :
    monoSt st (on_receive_proposal st proposer bnewId vd).1 := by
  unfold on_receive_proposal
  dsimp only
  split
  · exact receive_pre_monoSt st proposer bnewId
  · split
    · exact receive_pre_monoSt st proposer bnewId
    · exact receive_pre_monoSt st proposer bnewId

/-- The post-storage phase of on_propose preserves any monotonicity
    already established for the delivery step. -/
theorem propose_post_monoSt (S base : St) (newId ht : Nat) (vd : Bool)
    (h0 : monoSt base (on_deliver_blk S newId).1) :
    monoSt base (on_propose_post S newId ht vd).1 := by
  unfold on_propose_post
  dsimp only
  split
  · exact h0
  · have h1 : monoSt base (update (on_deliver_blk S newId).1 newId).1 :=
      monoSt_trans h0 (update_monoSt _ newId)
    split
    · exact h1
    · split
      case isTrue => exact h1
      case isFalse =>
        have h2 : monoSt base (on_receive_proposal (update (on_deliver_blk S newId).1 newId).1
            (update (on_deliver_blk S newId).1 newId).1.self_id newId vd).1 :=
          monoSt_trans h1 (receive_monoSt _ _ newId vd)
        split
        · exact h2
        · exact h2

/-- Storing a fresh block and delivering it satisfies the monotonicity
    invariant: the fresh hash had height 0, and no other entry moves. -/
theorem insert_deliver_monoSt (st : St) (newId : Nat) (bnew : Block) (tails' : List Nat)
    (hfresh : st.getBlk newId = none) :
    monoSt st (on_deliver_blk
      { st with tails := tails', blocks := (newId, bnew) :: st.blocks } newId).1 := by
  have hfr := deliver_frame { st with tails := tails', blocks := (newId, bnew) :: st.blocks } newId
  have hcons : ∀ x, x ≠ newId →
      ({ st with tails := tails', blocks := (newId, bnew) :: st.blocks } : St).getBlk x
        = st.getBlk x := by
    intro x hx
    unfold St.getBlk
    dsimp only
    simp [List.lookup_cons, hx]
    rw [show (x == newId) = false from beq_eq_false_iff_ne.mpr hx]
  have hzero : st.blkHeight newId = 0 := by
    unfold St.blkHeight
    rw [hfresh]
    rfl
  have hpw : ∀ x, st.blkHeight x ≤ (on_deliver_blk
      { st with tails := tails', blocks := (newId, bnew) :: st.blocks } newId).1.blkHeight x := by
    intro x
    by_cases hx : x = newId
    · subst hx
      rw [hzero]
      exact Nat.zero_le _
    · refine Nat.le_of_eq ?_
      unfold St.blkHeight
      rw [hfr.2.2.2.2 x hx, hcons x hx]
  refine ⟨hpw, Nat.le_of_eq hfr.1.symm, ?_, ?_, ?_⟩
  · rw [hfr.2.1]
    exact hpw st.b_lock
  · rw [hfr.2.2.2.1]
    exact hpw st.hqc_blk
  · rw [hfr.2.2.1]
    exact hpw st.b_exec

/-- on_propose for a fresh block hash satisfies the monotonicity
    invariant. -/
theorem propose_monoSt (st : St) (orders : OrdersMap) (parents : List Nat) (newId : Nat)
    (vd : Bool) (hfresh : st.getBlk newId = none) :
    monoSt st (on_propose st orders parents newId vd).1 := by
  unfold on_propose
  split
  · exact monoSt_refl st
  · dsimp only
    exact propose_post_monoSt _ st newId _ vd (insert_deliver_monoSt st newId _ _ hfresh)

/-- C3: update_hqc (consensus.cpp 93-99) replaces the hqc pair exactly
    when the candidate block is strictly higher; and every externally
    triggered operation — on_deliver_blk (with the chain pointers on
    delivered blocks), on_receive_proposal, on_receive_vote, and
    on_propose on a fresh block hash — leaves vheight and the heights of
    b_lock, hqc and b_exec no smaller than before. -/
theorem c3_monotonicity :
    (∀ (st : St) (h : Nat) (qc : QC),
       (st.blkHeight h > st.blkHeight st.hqc_blk →
         (update_hqc st h qc).1.hqc_blk = h ∧ (update_hqc st h qc).1.hqc_cert = qc ∧
         (update_hqc st h qc).2 = [Eff.hqcUpdate]) ∧
       (¬ st.blkHeight h > st.blkHeight st.hqc_blk →
         update_hqc st h qc = (st, []))) ∧
    (∀ (st : St) (hb : Nat),
       st.deliveredAt st.b_lock = true →
       st.deliveredAt st.b_exec = true →
       st.deliveredAt st.hqc_blk = true →
       st.vheight ≤ (on_deliver_blk st hb).1.vheight ∧
       st.blkHeight st.b_lock
         ≤ (on_deliver_blk st hb).1.blkHeight (on_deliver_blk st hb).1.b_lock ∧
       st.blkHeight st.hqc_blk
         ≤ (on_deliver_blk st hb).1.blkHeight (on_deliver_blk st hb).1.hqc_blk ∧
       st.blkHeight st.b_exec
         ≤ (on_deliver_blk st hb).1.blkHeight (on_deliver_blk st hb).1.b_exec) ∧
    (∀ (st : St) (proposer bnewId : Nat) (vd : Bool),
       st.vheight ≤ (on_receive_proposal st proposer bnewId vd).1.vheight ∧
       st.blkHeight st.b_lock
         ≤ (on_receive_proposal st proposer bnewId vd).1.blkHeight
           (on_receive_proposal st proposer bnewId vd).1.b_lock ∧
       st.blkHeight st.hqc_blk
         ≤ (on_receive_proposal st proposer bnewId vd).1.blkHeight
           (on_receive_proposal st proposer bnewId vd).1.hqc_blk ∧
       st.blkHeight st.b_exec
         ≤ (on_receive_proposal st proposer bnewId vd).1.blkHeight
           (on_receive_proposal st proposer bnewId vd).1.b_exec) ∧
    (∀ (st : St) (voter blkHash : Nat),
       st.vheight ≤ (on_receive_vote st voter blkHash).1.vheight ∧
       st.blkHeight st.b_lock
         ≤ (on_receive_vote st voter blkHash).1.blkHeight
           (on_receive_vote st voter blkHash).1.b_lock ∧
       st.blkHeight st.hqc_blk
         ≤ (on_receive_vote st voter blkHash).1.blkHeight
           (on_receive_vote st voter blkHash).1.hqc_blk ∧
       st.blkHeight st.b_exec
         ≤ (on_receive_vote st voter blkHash).1.blkHeight
           (on_receive_vote st voter blkHash).1.b_exec) ∧
    (∀ (st : St) (orders : OrdersMap) (parents : List Nat) (newId : Nat) (vd : Bool),
       st.getBlk newId = none →
       st.vheight ≤ (on_propose st orders parents newId vd).1.vheight ∧
       st.blkHeight st.b_lock
         ≤ (on_propose st orders parents newId vd).1.blkHeight
           (on_propose st orders parents newId vd).1.b_lock ∧
       st.blkHeight st.hqc_blk
         ≤ (on_propose st orders parents newId vd).1.blkHeight
           (on_propose st orders parents newId vd).1.hqc_blk ∧
       st.blkHeight st.b_exec
         ≤ (on_propose st orders parents newId vd).1.blkHeight
           (on_propose st orders parents newId vd).1.b_exec) := by
  refine ⟨?_, ?_, ?_, ?_, ?_⟩
  · intro st h qc
    constructor
    · intro hgt
      unfold update_hqc
      rw [if_pos hgt]
      exact ⟨rfl, rfl, rfl⟩
    · intro hgt
      unfold update_hqc
      rw [if_neg hgt]
  · intro st hb hl he hq
    have h := deliver_mono st hb hl he hq
    exact ⟨Nat.le_of_eq h.1.symm, h.2.1, h.2.2.1, h.2.2.2⟩
  · intro st p b vd
    have h := receive_monoSt st p b vd
    exact ⟨h.2.1, h.2.2.1, h.2.2.2.1, h.2.2.2.2⟩
  · intro st v bh
    have h := vote_monoSt st v bh
    exact ⟨h.2.1, h.2.2.1, h.2.2.2.1, h.2.2.2.2⟩
  · intro st orders parents newId vd hfresh
    have h := propose_monoSt st orders parents newId vd hfresh
    exact ⟨h.2.1, h.2.2.1, h.2.2.2.1, h.2.2.2.2⟩

/-- Concrete instantiation of C3 on stEx: delivery of block 11 and a
    fresh proposal with hash 99 on parent 11. -/
theorem c3_monotonicity_witness :
    (stEx.deliveredAt stEx.b_lock = true ∧ stEx.deliveredAt stEx.b_exec = true ∧
     stEx.deliveredAt stEx.hqc_blk = true ∧ stEx.getBlk 99 = none) ∧
    (stEx.vheight ≤ (on_deliver_blk stEx 11).1.vheight ∧
     stEx.blkHeight stEx.b_lock
       ≤ (on_deliver_blk stEx 11).1.blkHeight (on_deliver_blk stEx 11).1.b_lock ∧
     stEx.blkHeight stEx.hqc_blk
       ≤ (on_deliver_blk stEx 11).1.blkHeight (on_deliver_blk stEx 11).1.hqc_blk ∧
     stEx.blkHeight stEx.b_exec
       ≤ (on_deliver_blk stEx 11).1.blkHeight (on_deliver_blk stEx 11).1.b_exec) ∧
    (stEx.vheight ≤ (on_propose stEx [(0, [5])] [11] 99 false).1.vheight ∧
     stEx.blkHeight stEx.b_lock
       ≤ (on_propose stEx [(0, [5])] [11] 99 false).1.blkHeight
         (on_propose stEx [(0, [5])] [11] 99 false).1.b_lock ∧
     stEx.blkHeight stEx.hqc_blk
       ≤ (on_propose stEx [(0, [5])] [11] 99 false).1.blkHeight
         (on_propose stEx [(0, [5])] [11] 99 false).1.hqc_blk ∧
     stEx.blkHeight stEx.b_exec
       ≤ (on_propose stEx [(0, [5])] [11] 99 false).1.blkHeight
         (on_propose stEx [(0, [5])] [11] 99 false).1.b_exec) :=
  ⟨⟨by decide, by decide, by decide, by decide⟩,
   c3_monotonicity.2.1 stEx 11 (by decide) (by decide) (by decide),
   c3_monotonicity.2.2.2.2 stEx [(0, [5])] [11] 99 false (by decide)⟩

end Alkane
